import Mathlib

set_option maxHeartbeats 1000000

/-!
Shallow embedding of the consultant-score reconciliation scripts
(`process.py`, `analise-pontuacao.py`, `analise_pontuacao.py`).

The normalizers, the tiered matching loop, the metric coercion, the
column-resolution heuristic and the history merge are translated from
`process.py` (the fullest variant); where a sibling script differs in a way a
claim depends on, the sibling's version is embedded alongside under its own
name.  External collaborators (the `unidecode` transliteration table, Python
`float` parsing of strings, the `rapidfuzz` token-set scorer) are parameters
of the definitions that call them.
-/

/-! ## Character utilities -/

/-- Whitespace class: the characters stripped by Python `str.strip` and
matched by the `\s` class of `re.sub` — the full Python whitespace set
(ASCII whitespace, the C1 separators and NEL, and the Unicode space
code points U+00A0, U+1680, U+2000-U+200A, U+2028, U+2029, U+202F,
U+205F, U+3000). -/
def isWS (c : Char) : Bool :=
  c == ' ' || c == '\t' || c == '\n' || c == '\r' || c == '\u000B' ||
    c == '\u000C' || c == '\u001C' || c == '\u001D' || c == '\u001E' ||
    c == '\u001F' || c == '\u0085' || c == '\u00A0' || c == '\u1680' ||
    c == '\u2000' || c == '\u2001' || c == '\u2002' || c == '\u2003' ||
    c == '\u2004' || c == '\u2005' || c == '\u2006' || c == '\u2007' ||
    c == '\u2008' || c == '\u2009' || c == '\u200A' || c == '\u2028' ||
    c == '\u2029' || c == '\u202F' || c == '\u205F' || c == '\u3000'

/-- ASCII test for a character. -/
def isAsciiB (c : Char) : Bool := c.toNat < 128

/-- ASCII uppercasing of a single character; models Python `str.upper`,
exact on the ASCII range (the only range produced by the transliteration
step that precedes it). -/
def upChar (c : Char) : Char :=
  if 97 ≤ c.toNat ∧ c.toNat ≤ 122 then Char.ofNat (c.toNat - 32) else c

/-- ASCII lowercasing; models Python `str.lower` as used on column headers. -/
def lowChar (c : Char) : Char :=
  if 65 ≤ c.toNat ∧ c.toNat ≤ 90 then Char.ofNat (c.toNat + 32) else c

/-- Decimal-digit test: the complement of the `\D` class of
`re.sub(r"\D", "", ...)`. -/
def isDigitB (c : Char) : Bool := 48 ≤ c.toNat && c.toNat ≤ 57

/-! ## Normalizer (process.py lines 99-110) -/

/-- `s.strip()`: drop leading and trailing whitespace. -/
def stripWS (l : List Char) : List Char :=
  ((l.dropWhile isWS).reverse.dropWhile isWS).reverse

/-- One pass of `re.sub(r"\s+", " ", s)`: every maximal whitespace run
becomes one space.  The flag records whether the previous character was
part of a whitespace run. -/
def collapseAux : Bool → List Char → List Char
  | _, [] => []
  | prev, c :: cs =>
    if isWS c then
      if prev then collapseAux true cs else ' ' :: collapseAux true cs
    else c :: collapseAux false cs

/-- `re.sub(r"\s+", " ", s)`. -/
def collapseWS (l : List Char) : List Char := collapseAux false l

/-- `norm_name` (process.py lines 104-110) on an already-string input:
strip, transliterate to ASCII (`unidecode`, modelled by the
character-to-string table `deasc` — real unidecode maps one character to
a possibly multi-character ASCII string, e.g. a CJK character to its
romanization followed by a space), uppercase, collapse whitespace runs to
single spaces.  Note the order: stripping happens BEFORE transliteration,
so whitespace introduced by the transliteration is not trimmed. -/
def norm_name (deasc : Char → List Char) (l : List Char) : List Char :=
  collapseWS (((stripWS l).flatMap deasc).map upChar)

/-! ## Cell values and the metric coercion (process.py lines 263-266,
analise-pontuacao.py lines 203-207) -/

/-- A Python cell value as seen by the metric coercion: `None`, a float
`NaN`, a string, or a numeric value (modelled by `ℚ`). -/
inductive MCell where
  | mnone : MCell
  | mnan : MCell
  | mstr : String → MCell
  | mnum : ℚ → MCell
deriving DecidableEq

/-- A Python float as produced by the coercion: numeric or `NaN`. -/
inductive PFloat where
  | num : ℚ → PFloat
  | nan : PFloat
deriving DecidableEq

/-- process.py lines 263-266:
`float(pontos_val) if pontos_val not in (None, "", float("nan")) else 0.0`
inside `try/except`.  Tuple membership tests with `==`, and `nan == nan` is
`False` in Python, so the guard catches only `None` and `""`; a `NaN` cell
flows through `float` unchanged.  `parse` models Python `float` on strings
(`none` = `ValueError`, recovered to `0.0` by the `except` arm). -/
def coerceMetricProcess (parse : String → Option ℚ) : MCell → PFloat
  | .mnone => .num 0
  | .mnan => .nan
  | .mstr s => if s = "" then .num 0 else ((parse s).map PFloat.num).getD (.num 0)
  | .mnum q => .num q

/-- analise-pontuacao.py lines 203-207:
`float(pontos) if pd.notna(pontos) else 0.0` inside `try/except`;
`pd.notna` is `False` on `None` and `NaN`, so both coerce to `0.0`. -/
def coerceMetricAction (parse : String → Option ℚ) : MCell → PFloat
  | .mnone => .num 0
  | .mnan => .num 0
  | .mstr s => ((parse s).map PFloat.num).getD (.num 0)
  | .mnum q => .num q

/-! ## Identifier cells and clean_cpf (process.py lines 99-102) -/

/-- An identifier cell: missing (`None`/`NaN`), text, an integer-typed
cell, or a float-typed cell holding the whole number `n` (pandas reads
numeric identifier columns as floats; Python prints such a float as
`n.0`, exact for `n` below 2^53). -/
inductive ICell where
  | inone : ICell
  | inan : ICell
  | itext : String → ICell
  | iint : Nat → ICell
  | ifloatWhole : Nat → ICell
deriving DecidableEq

/-- Python `str()` on an identifier cell. -/
def pyStrI : ICell → String
  | .inone => "None"
  | .inan => "nan"
  | .itext s => s
  | .iint n => toString n
  | .ifloatWhole n => toString n ++ ".0"

/-- `clean_cpf` (process.py lines 99-102): empty string on missing values
(`pd.isna`), else `re.sub(r"\D", "", str(x))`. -/
def clean_cpf (x : ICell) : String :=
  match x with
  | .inone => ""
  | .inan => ""
  | _ => String.mk ((pyStrI x).data.filter isDigitB)

/-! ## Row types for the matching loop -/

/-- One normalized row of the cadastros (enrollment) table: `cpf` and
`nome` are the canonical `__CPF` / `__NOME_CAD` columns, `dealer` the raw
dealer cell, `amostra` the filled `__AMOSTRA` value. -/
structure CadRow where
  cpf : String
  nome : String
  dealer : String
  amostra : Nat
deriving DecidableEq

/-- One normalized row of the consultores (scoring) table: canonical
`__CPF` / `__NOME_CONS`, the `__AMOSTRA` value, and `pontos` = the cell of
the first pontuação-like column picked by the heuristic of lines 253-261. -/
structure ConsRow where
  cpf : String
  nome : String
  amostra : Nat
  pontos : MCell
deriving DecidableEq

/-- Python-dict update: replace the value at an existing key in place,
else append the new binding (insertion order preserved). -/
def dictUpd (m : List (String × ConsRow)) (k : String) (v : ConsRow) :
    List (String × ConsRow) :=
  match m with
  | [] => [(k, v)]
  | (k0, v0) :: rest => if k0 = k then (k0, v) :: rest else (k0, v0) :: dictUpd rest k v

/-- Index builder shared by `cons_by_cpf` (line 191) and the
`cons_by_name` loop (lines 194-198): insert each row under `key r`,
skipping empty keys; a later row overwrites an earlier one with the same
key (dict semantics). -/
def mkDict (key : ConsRow → String) (rows : List ConsRow) : List (String × ConsRow) :=
  rows.foldl (fun m r => if key r = "" then m else dictUpd m (key r) r) []

/-- `cons_by_cpf = {r["__CPF"]: r for _, r in df_cons.iterrows() if r["__CPF"]}`. -/
def cons_by_cpf (rows : List ConsRow) : List (String × ConsRow) := mkDict (·.cpf) rows

/-- The `cons_by_name` dict of lines 194-198 (keep last on duplicate names). -/
def cons_by_name (rows : List ConsRow) : List (String × ConsRow) := mkDict (·.nome) rows

/-- The fuzzy scan of lines 232-238: best score so far (initially `-1`) and
the index of the first name reaching it (strict `>` keeps the first
maximum). -/
def scanBest (score : String → Nat) : List String → Nat → Int × Option Nat → Int × Option Nat
  | [], _, acc => acc
  | n :: ns, i, (bs, bi) =>
    if (score n : Int) > bs then scanBest score ns (i + 1) ((score n : Int), some i)
    else scanBest score ns (i + 1) (bs, bi)

/-- The `_match_type` values of the output records. -/
inductive MT where
  | cpfExato
  | nomeExato
  | nomeFuzzy100
  | naoPontuou
deriving DecidableEq

/-- One output record (`out_record`, lines 273-295). -/
structure Outcome where
  dealer : String
  nomeCons : String
  cpf : String
  amostra : Nat
  pontuacao : PFloat
  matchType : MT
deriving DecidableEq

/-- Output record for a matched row (lines 245-282): CPF and name come from
the cadastro row, `Amostra` and the coerced metric from the matched
consultores row. -/
def matchedOutcome (parse : String → Option ℚ) (cad : CadRow) (r : ConsRow) (mt : MT) :
    Outcome :=
  { dealer := cad.dealer, nomeCons := cad.nome, cpf := cad.cpf,
    amostra := r.amostra, pontuacao := coerceMetricProcess parse r.pontos,
    matchType := mt }

/-- Output record for an unmatched cadastro row (lines 283-295):
`PONTUACAO` 0, `_match_type` `CADASTRADO_NAO_PONTUOU`. -/
def unmatchedOutcome (cad : CadRow) : Outcome :=
  { dealer := cad.dealer, nomeCons := cad.nome, cpf := cad.cpf,
    amostra := cad.amostra, pontuacao := .num 0, matchType := .naoPontuou }

/-- The way a run can abort inside the match loop.  `attrError`: the
fuzzy-accept branch reads `matched_row.index` (line 253), but
`matched_row` was taken from `cad_rows_list = df_cons.to_dict("records")`
(line 204), a list of plain dicts, and a dict has no `.index` attribute;
the AttributeError propagates to the top-level `except` (line 357) and the
process exits with status 1 before writing any output. -/
inductive RunAbort where
  | attrError
deriving DecidableEq

/-- The tiered resolution for one enrollment row (process.py lines
206-295): CPF exact, then name exact, then the fuzzy scan; a fuzzy score
of exactly 100 takes the accept branch, which crashes with AttributeError
at line 253 (see `RunAbort.attrError`) before an outcome is built; below
100 the row is unmatched.  `scorer` models `fuzz.token_set_ratio`,
`parse` models Python `float` on strings. -/
def matchOne (scorer : String → String → Nat) (parse : String → Option ℚ)
    (rows : List ConsRow) (cad : CadRow) : Except RunAbort Outcome :=
  match if cad.cpf = "" then none else (cons_by_cpf rows).lookup cad.cpf with
  | some r => .ok (matchedOutcome parse cad r .cpfExato)
  | none =>
    match if cad.nome = "" then none else (cons_by_name rows).lookup cad.nome with
    | some r => .ok (matchedOutcome parse cad r .nomeExato)
    | none =>
      if cad.nome ≠ "" ∧ rows ≠ [] then
        let sb := scanBest (scorer cad.nome) (rows.map (·.nome)) 0 (-1, none)
        if sb.1 = 100 then .error .attrError
        else .ok (unmatchedOutcome cad)
      else .ok (unmatchedOutcome cad)

/-! ## Keep-last deduplication and the per-run pipeline -/

/-- Does any element of `l` carry key `k`? -/
def hasKeyB {α : Type} (key : α → String) (l : List α) (k : String) : Bool :=
  l.any (fun x => key x == k)

/-- `drop_duplicates(keep="last")` on key `key`: keep, in original order,
each row whose key does not reappear later. -/
def keepLastBy {α : Type} (key : α → String) : List α → List α
  | [] => []
  | x :: xs =>
    if hasKeyB key xs (key x) then keepLastBy key xs else x :: keepLastBy key xs

/-- Line 171: the loaded cadastros table is deduplicated by canonical CPF
(`drop_duplicates(subset="__CPF", keep="last")`, after a no-op
`sort_index`) before the match loop runs. -/
def dedupCad (cads : List CadRow) : List CadRow := keepLastBy (·.cpf) cads

/-- Run the per-row step over the rows in order, aborting the whole run at
the first error (the match loop body at lines 206-295 sits inside the
single `try` of line 356: an uncaught exception in any iteration kills the
process). -/
def runRows (f : CadRow → Except RunAbort Outcome) :
    List CadRow → Except RunAbort (List Outcome)
  | [] => .ok []
  | c :: cs =>
    match f c with
    | .error e => .error e
    | .ok o =>
      match runRows f cs with
      | .error e => .error e
      | .ok os => .ok (o :: os)

/-- The per-run reconciliation (lines 171 and 206-295): the rows surviving
the CPF dedup are matched in order; if every row resolves without the
line-253 crash the run yields one outcome per surviving row, otherwise the
run aborts with no output at all. -/
def processAll (scorer : String → String → Nat) (parse : String → Option ℚ)
    (rows : List ConsRow) (cads : List CadRow) : Except RunAbort (List Outcome) :=
  runRows (matchOne scorer parse rows) (dedupCad cads)

/-! ## History / ledger merge (process.py lines 339-354) -/

/-- One row of the historico CSV (`HIST_REQUIRED_COLS`).  `dataImport`
abstracts the ISO timestamp string by a totally ordered stamp
(ISO-8601 strings compare lexicographically in chronological order). -/
structure HistEntry where
  dealer : String
  nomeCons : String
  cpf : String
  amostra : Nat
  dataImport : Nat
deriving DecidableEq

/-- `df_hist_new` (lines 342-348): one entry per result row — matched or
not — all stamped with the run's single `datetime.utcnow().isoformat()`
value `t`. -/
def buildHistNew (results : List Outcome) (t : Nat) : List HistEntry :=
  results.map (fun o =>
    { dealer := o.dealer, nomeCons := o.nomeCons, cpf := o.cpf,
      amostra := o.amostra, dataImport := t })

/-- Stable insertion by `dataImport`: place `x` before the first entry not
strictly earlier than it. -/
def insE (x : HistEntry) : List HistEntry → List HistEntry
  | [] => [x]
  | y :: ys => if y.dataImport < x.dataImport then y :: insE x ys else x :: y :: ys

/-- Insertion sort by `dataImport` with the STABLE tie order (equal stamps
keep input order).  Line 353 actually calls `sort_values("data_import")`
with the default `kind` — an UNSTABLE quicksort — so the relative order of
equal stamps is unspecified in the code; this definition models the fixed
stable tie order the spec's design section postulates (existing-ledger
rows before the freshly appended batch), not a guarantee of pandas. -/
def ssortE : List HistEntry → List HistEntry
  | [] => []
  | x :: xs => insE x (ssortE xs)

/-- Lines 350-354: concatenate old history and new batch, sort by
`data_import`, drop duplicate CPFs keeping the last, and persist.  Via
`ssortE` this bakes in a stable tie order that the code's unstable
`sort_values` does not promise. -/
def mergeHist (old new : List HistEntry) : List HistEntry :=
  keepLastBy (·.cpf) (ssortE (old ++ new))

/-! ## Column resolution (process.py lines 112-127 and 157-160) -/

/-- Is the first list a leading segment of the second? -/
def startsWithL : List Char → List Char → Bool
  | [], _ => true
  | _ :: _, [] => false
  | a :: as, b :: bs => a == b && startsWithL as bs

/-- Substring containment on character lists: models Python
`needle in haystack` on strings. -/
def containsSub (n : List Char) : List Char → Bool
  | [] => startsWithL n []
  | c :: t => startsWithL n (c :: t) || containsSub n t

/-- Lower-cased character list of a column header (`c.lower()`). -/
def lowerL (s : String) : List Char := s.data.map lowChar

/-- `find_col` (process.py lines 112-127): first candidate whose lower-cased
name equals a column's lower-cased name; failing that, the first column
containing `"cpf"`; failing that, the first column containing `"nome"` or
`"consultor"`. -/
def find_col (cols : List String) (cands : List String) : Option String :=
  (cands.findSome? (fun cand => cols.find? (fun c => lowerL c == lowerL cand))).or
    ((cols.find? (fun c => containsSub "cpf".data (lowerL c))).or
      (cols.find? (fun c =>
        containsSub "nome".data (lowerL c) || containsSub "consultor".data (lowerL c))))

/-- Line 154: the CPF column of the cadastros table. -/
def cadCpfCol (cols : List String) : Option String := find_col cols ["CPF"]

/-- Line 155: the name column of the cadastros table. -/
def cadNomeCol (cols : List String) : Option String :=
  find_col cols ["Nome", "NOME", "Nome Completo"]

/-- Lines 157-160: the required-columns check on the cadastros table; it
fires (`sys.exit(1)`, before any output is written) iff the CPF or the
name column of the cadastros table is unresolved.  A run that passes this
check may still abort later for unrelated reasons (e.g. the line-253
fuzzy crash). -/
def cadColsFatal (cols : List String) : Bool :=
  (cadCpfCol cols).isNone || (cadNomeCol cols).isNone

/-! ## Auxiliary predicates used by the verification -/

/-- Rows of `u` whose key does not occur in `v`. -/
def filterNotIn {α : Type} (key : α → String) (v u : List α) : List α :=
  u.filter (fun x => ! hasKeyB key v (key x))

/-- Sorted (non-strictly) by import stamp. -/
def SortedD (l : List HistEntry) : Prop :=
  l.Pairwise (fun a b => a.dataImport ≤ b.dataImport)

/-- The head, if any, is not whitespace. -/
def headNonWS (l : List Char) : Prop :=
  ∀ c, l.head? = some c → isWS c = false

/-- The last character, if any, is not whitespace. -/
def lastNonWS (l : List Char) : Prop :=
  ∀ c, l.getLast? = some c → isWS c = false

/-- Well-formed collapsed text: every whitespace character is a plain
space, and no two consecutive characters are both whitespace. -/
def collapsedWF (l : List Char) : Prop :=
  (∀ c ∈ l, isWS c = true → c = ' ') ∧
    l.Chain' (fun a b => ¬(isWS a = true ∧ isWS b = true))

/-- A concrete well-behaved transliteration table (identity on ASCII,
non-ASCII whitespace to a space, everything else to a letter), used to
instantiate the normalizer theorem on concrete inputs. -/
def deascW (c : Char) : List Char :=
  if isAsciiB c then [c] else if isWS c then [' '] else ['A']

/-- The real `unidecode` on the probe characters of this development:
`unidecode('北') = "Bei "` and `unidecode('亰') = "Jing "` — CJK
characters romanize to multi-letter strings ending in a space.  Every
other character is left unchanged (true for ASCII, and the only other
characters this table is applied to are ASCII). -/
def deascCJK (c : Char) : List Char :=
  if c = '北' then "Bei ".data else if c = '亰' then "Jing ".data else [c]

/-! # Helper lemmas -/

theorem getLast?_cons_or {α : Type} (x : α) (l : List α) :
    (x :: l).getLast? = (l.getLast?).or (some x) := by
  cases l with
  | nil => rfl
  | cons y ys =>
    rw [List.getLast?_cons_cons]
    have hne : (y :: ys).getLast? ≠ none := by
      simp [List.getLast?_eq_none_iff]
    obtain ⟨a, ha⟩ := Option.ne_none_iff_exists'.mp hne
    rw [ha]
    rfl

theorem lookup_dictUpd (m : List (String × ConsRow)) (k k' : String) (v : ConsRow) :
    (dictUpd m k v).lookup k' = if k' = k then some v else m.lookup k' := by
  induction m with
  | nil =>
    by_cases h : k' = k
    · simp [dictUpd, List.lookup, beq_iff_eq.mpr h, h]
    · have hb : (k' == k) = false := beq_eq_false_iff_ne.mpr h
      simp [dictUpd, List.lookup, hb, h]
  | cons p rest ih =>
    obtain ⟨k0, v0⟩ := p
    by_cases h0 : k0 = k
    · subst h0
      by_cases h : k' = k0
      · simp [dictUpd, List.lookup, beq_iff_eq.mpr h, h]
      · have hb : (k' == k0) = false := beq_eq_false_iff_ne.mpr h
        simp [dictUpd, List.lookup, hb, h]
    · by_cases h : k' = k0
      · subst h
        have hki : ¬ k' = k := fun hc => h0 (hc ▸ rfl)
        simp [dictUpd, h0, List.lookup, hki]
      · have hb : (k' == k0) = false := beq_eq_false_iff_ne.mpr h
        by_cases hk : k' = k
        · subst hk
          simp [dictUpd, h0, List.lookup, hb, ih]
        · simp [dictUpd, h0, List.lookup, hb, hk, ih]

theorem mkDict_foldl_lookup (key : ConsRow → String) (rows : List ConsRow)
    (k : String) (hk : k ≠ "") :
    ∀ m : List (String × ConsRow),
      (rows.foldl (fun m r => if key r = "" then m else dictUpd m (key r) r) m).lookup k
        = ((rows.filter (fun r => key r == k)).getLast?).or (m.lookup k) := by
  induction rows with
  | nil => intro m; simp
  | cons r rs ih =>
    intro m
    rw [List.foldl_cons, ih]
    by_cases hr : key r == k
    · have hrk : key r = k := by simpa using hr
      have hne : ¬ key r = "" := by rw [hrk]; exact hk
      rw [if_neg hne]
      have hfc : (r :: rs).filter (fun r => key r == k)
          = r :: rs.filter (fun r => key r == k) := by
        simp [List.filter_cons, hr]
      rw [hfc, getLast?_cons_or]
      rw [lookup_dictUpd, if_pos hrk.symm, Option.or_assoc]
      rfl
    · have hfc : (r :: rs).filter (fun r => key r == k)
          = rs.filter (fun r => key r == k) := by
        simp [List.filter_cons, hr]
      rw [hfc]
      by_cases he : key r = ""
      · rw [if_pos he]
      · have hne2 : ¬ k = key r := fun hc => hr (beq_iff_eq.mpr hc.symm)
        rw [if_neg he, lookup_dictUpd, if_neg hne2]

theorem mkDict_lookup (key : ConsRow → String) (rows : List ConsRow)
    (k : String) (hk : k ≠ "") :
    (mkDict key rows).lookup k = (rows.filter (fun r => key r == k)).getLast? := by
  unfold mkDict
  rw [mkDict_foldl_lookup key rows k hk []]
  simp [List.lookup]

/-! # Claim theorems: identifier cleaning and metric coercion -/

/-- Claim C10: `clean_cpf` stringifies non-string cells before stripping
non-digits, so a whole-number float cell gains a spurious trailing digit
from the `.0` suffix: `clean_cpf(12345678900.0)` is `"123456789000"`, while
the same identifier stored as text cleans to `"12345678900"`; the two cells
canonicalize to different keys. -/
theorem claim_C10_floatCpf :
    clean_cpf (ICell.ifloatWhole 12345678900) = "123456789000" ∧
    clean_cpf (ICell.itext "12345678900") = "12345678900" ∧
    clean_cpf (ICell.ifloatWhole 12345678900) ≠ clean_cpf (ICell.itext "12345678900") := by
  decide

/-- Claim C8 (code bug): process.py means to coerce a malformed metric
(`None`, `""`, `NaN`, unparseable text) to `0.0`, and its guard tuple
even spells out `float("nan")` — but `nan == nan` is false in Python, so a
`NaN` metric cell sails through `float` and the resolved metric is `NaN`,
not `0`.  The sibling variant analise-pontuacao.py (lines 203-207) uses
`pd.notna` and does coerce `NaN` to `0`, witnessing the intent.  The other
malformed shapes are recovered to `0` in both variants, and the coercion
is total (never raises). -/
theorem claim_C8_nanMetric :
    (∀ parse, coerceMetricProcess parse MCell.mnan = PFloat.nan) ∧
    PFloat.nan ≠ PFloat.num 0 ∧
    (∀ parse, coerceMetricAction parse MCell.mnan = PFloat.num 0) ∧
    (∀ parse, coerceMetricProcess parse MCell.mnone = PFloat.num 0) ∧
    (∀ parse, coerceMetricProcess parse (MCell.mstr "") = PFloat.num 0) ∧
    (coerceMetricProcess (fun _ => none) (MCell.mstr "abc") = PFloat.num 0) := by
  exact ⟨fun _ => rfl, by decide, fun _ => rfl, fun _ => rfl, fun _ => rfl, rfl⟩

/-! # Claim C2: identifier tier always wins -/

/-- Claim C2: when the enrollment row's canonical identifier is non-empty
and equal to the canonical identifier of some scoring row, the row is
resolved to an outcome carrying tier `CPF_EXATO` (IDENTIFIER_EXACT),
whatever the names are; no name-based tier is chosen for such a row. -/
theorem claim_C2_identifierExact (scorer : String → String → Nat)
    (parse : String → Option ℚ) (rows : List ConsRow) (cad : CadRow)
    (hcpf : cad.cpf ≠ "") (hex : ∃ r ∈ rows, r.cpf = cad.cpf) :
    ∃ o, matchOne scorer parse rows cad = Except.ok o ∧ o.matchType = MT.cpfExato := by
  obtain ⟨r, hr, hrc⟩ := hex
  have hmem : r ∈ rows.filter (fun r => r.cpf == cad.cpf) :=
    List.mem_filter.mpr ⟨hr, by simp [hrc]⟩
  have hne : rows.filter (fun r => r.cpf == cad.cpf) ≠ [] :=
    List.ne_nil_of_mem hmem
  have hlast : ∃ r0, (rows.filter (fun r => r.cpf == cad.cpf)).getLast? = some r0 := by
    cases h : (rows.filter (fun r => r.cpf == cad.cpf)).getLast? with
    | none => exact absurd (List.getLast?_eq_none_iff.mp h) hne
    | some r0 => exact ⟨r0, rfl⟩
  obtain ⟨r0, hr0⟩ := hlast
  have hlk : (cons_by_cpf rows).lookup cad.cpf = some r0 := by
    unfold cons_by_cpf
    rw [mkDict_lookup _ _ _ hcpf, hr0]
  refine ⟨matchedOutcome parse cad r0 MT.cpfExato, ?_, rfl⟩
  unfold matchOne
  rw [if_neg hcpf, hlk]

/-- Claim C2 witness: a concrete row pair with equal identifiers and
completely different names resolves as `CPF_EXATO`. -/
theorem claim_C2_witness :
    (CadRow.cpf ⟨"12345678900", "MARIA SILVA", "D1", 1⟩ ≠ "") ∧
    (∃ r ∈ ([⟨"12345678900", "JOSE PEREIRA", 4, MCell.mnum 5⟩] : List ConsRow),
      r.cpf = CadRow.cpf ⟨"12345678900", "MARIA SILVA", "D1", 1⟩) ∧
    (∃ o, matchOne (fun _ _ => 0) (fun _ => none)
        ([⟨"12345678900", "JOSE PEREIRA", 4, MCell.mnum 5⟩] : List ConsRow)
        ⟨"12345678900", "MARIA SILVA", "D1", 1⟩ = Except.ok o ∧
      o.matchType = MT.cpfExato) := by
  refine ⟨by decide, by decide, ?_⟩
  exact claim_C2_identifierExact (fun _ _ => 0) (fun _ => none) _ _ (by decide) (by decide)

/-! # Claim C4: the byName index keeps the last row, not the max metric -/

/-- Claim C4 counterexample: two scoring rows share the name `"ANA"` with
metrics 10 then 5; the claim says a NAME_EXACT match returns the
maximum-metric candidate (metric 10), but the dict built at lines 194-198
keeps the last row, so the outcome's metric is 5. -/
theorem claim_C4_counterexample :
    matchOne (fun _ _ => 0) (fun _ => none)
        ([⟨"", "ANA", 1, MCell.mnum 10⟩, ⟨"", "ANA", 2, MCell.mnum 5⟩] : List ConsRow)
        ⟨"", "ANA", "D1", 1⟩
      = Except.ok (matchedOutcome (fun _ => none) ⟨"", "ANA", "D1", 1⟩
          ⟨"", "ANA", 2, MCell.mnum 5⟩ MT.nomeExato) ∧
    (matchedOutcome (fun _ => none) (⟨"", "ANA", "D1", 1⟩ : CadRow)
        (⟨"", "ANA", 2, MCell.mnum 5⟩ : ConsRow) MT.nomeExato).matchType = MT.nomeExato ∧
    (matchedOutcome (fun _ => none) (⟨"", "ANA", "D1", 1⟩ : CadRow)
        (⟨"", "ANA", 2, MCell.mnum 5⟩ : ConsRow) MT.nomeExato).pontuacao = PFloat.num 5 ∧
    PFloat.num 5 ≠ PFloat.num 10 :=
  ⟨rfl, by decide, by decide, by decide⟩

/-- Claim C4 amended: when several scoring rows share a canonical name, the
`cons_by_name` index resolves that name to the row encountered LAST in
input order (each dict insertion overwrites the previous one), so an
ambiguous NAME_EXATO match returns the last candidate's coerced metric —
not the maximum-metric candidate's. -/
theorem claim_C4_lastWins (scorer : String → String → Nat)
    (parse : String → Option ℚ) (rows : List ConsRow) (cad : CadRow) (r : ConsRow)
    (h1 : (if cad.cpf = "" then none else (cons_by_cpf rows).lookup cad.cpf) = none)
    (hk : cad.nome ≠ "")
    (hlast : (rows.filter (fun r => r.nome == cad.nome)).getLast? = some r) :
    matchOne scorer parse rows cad = Except.ok (matchedOutcome parse cad r MT.nomeExato) := by
  have hlk : (cons_by_name rows).lookup cad.nome = some r := by
    unfold cons_by_name
    rw [mkDict_lookup _ _ _ hk, hlast]
  unfold matchOne
  rw [h1, hlk, if_neg hk]

/-- Claim C4 amended, witness: on the counterexample rows the resolved row
is the second (last) one. -/
theorem claim_C4_lastWins_witness :
    ((if CadRow.cpf ⟨"", "ANA", "D1", 1⟩ = "" then none
      else (cons_by_cpf ([⟨"", "ANA", 1, MCell.mnum 10⟩, ⟨"", "ANA", 2, MCell.mnum 5⟩] :
        List ConsRow)).lookup (CadRow.cpf ⟨"", "ANA", "D1", 1⟩)) = none) ∧
    (CadRow.nome ⟨"", "ANA", "D1", 1⟩ ≠ "") ∧
    ((([⟨"", "ANA", 1, MCell.mnum 10⟩, ⟨"", "ANA", 2, MCell.mnum 5⟩] : List ConsRow).filter
        (fun r => r.nome == CadRow.nome ⟨"", "ANA", "D1", 1⟩)).getLast?
      = some ⟨"", "ANA", 2, MCell.mnum 5⟩) ∧
    matchOne (fun _ _ => 0) (fun _ => none)
      ([⟨"", "ANA", 1, MCell.mnum 10⟩, ⟨"", "ANA", 2, MCell.mnum 5⟩] : List ConsRow)
      ⟨"", "ANA", "D1", 1⟩
      = Except.ok (matchedOutcome (fun _ => none) ⟨"", "ANA", "D1", 1⟩
          ⟨"", "ANA", 2, MCell.mnum 5⟩ MT.nomeExato) := by
  refine ⟨by decide, by decide, by decide, ?_⟩
  exact claim_C4_lastWins (fun _ _ => 0) (fun _ => none) _ _ _ (by decide) (by decide) (by decide)

/-! # Keep-last deduplication lemmas -/

theorem keepLastBy_sublist {α : Type} (key : α → String) (l : List α) :
    (keepLastBy key l).Sublist l := by
  induction l with
  | nil => simp [keepLastBy]
  | cons x xs ih =>
    unfold keepLastBy
    by_cases h : hasKeyB key xs (key x)
    · rw [if_pos h]; exact ih.cons x
    · rw [if_neg h]; exact ih.cons₂ x

theorem mem_of_mem_keepLastBy {α : Type} {key : α → String} {l : List α} {x : α}
    (h : x ∈ keepLastBy key l) : x ∈ l :=
  (keepLastBy_sublist key l).subset h

theorem hasKeyB_iff {α : Type} (key : α → String) (l : List α) (k : String) :
    hasKeyB key l k = true ↔ ∃ x ∈ l, key x = k := by
  simp [hasKeyB, List.any_eq_true]

theorem hasKeyB_append {α : Type} (key : α → String) (u v : List α) (k : String) :
    hasKeyB key (u ++ v) k = (hasKeyB key u k || hasKeyB key v k) := by
  simp [hasKeyB, List.any_append]

theorem hasKeyB_false_of_subset {α : Type} {key : α → String} {u v : List α} {k : String}
    (hsub : ∀ x ∈ u, x ∈ v) (hv : hasKeyB key v k = false) : hasKeyB key u k = false := by
  by_contra h
  have := (hasKeyB_iff key u k).mp (by revert h; cases hasKeyB key u k <;> simp)
  obtain ⟨x, hx, hk⟩ := this
  have : hasKeyB key v k = true := (hasKeyB_iff key v k).mpr ⟨x, hsub x hx, hk⟩
  simp [this] at hv

theorem hasKeyB_keepLastBy {α : Type} (key : α → String) (l : List α) (k : String) :
    hasKeyB key (keepLastBy key l) k = hasKeyB key l k := by
  induction l with
  | nil => simp [keepLastBy]
  | cons x xs ih =>
    unfold keepLastBy
    by_cases h : hasKeyB key xs (key x)
    · rw [if_pos h, ih]
      by_cases hk : key x = k
      · subst hk
        rw [h]
        simp [hasKeyB]
      · have : (key x == k) = false := beq_eq_false_iff_ne.mpr hk
        simp [hasKeyB, this]
    · rw [if_neg h]
      simp only [hasKeyB, List.any_cons] at *
      rw [ih]

theorem keepLastBy_pairwise {α : Type} (key : α → String) (l : List α) :
    (keepLastBy key l).Pairwise (fun a b => key a ≠ key b) := by
  induction l with
  | nil => simp [keepLastBy]
  | cons x xs ih =>
    unfold keepLastBy
    by_cases h : hasKeyB key xs (key x)
    · rw [if_pos h]; exact ih
    · rw [if_neg h]
      refine List.Pairwise.cons ?_ ih
      intro y hy hkeq
      have hyx : y ∈ xs := mem_of_mem_keepLastBy hy
      have : hasKeyB key xs (key x) = true :=
        (hasKeyB_iff key xs (key x)).mpr ⟨y, hyx, hkeq.symm⟩
      exact h this

theorem keepLastBy_eq_self {α : Type} (key : α → String) (l : List α)
    (h : l.Pairwise (fun a b => key a ≠ key b)) : keepLastBy key l = l := by
  induction l with
  | nil => rfl
  | cons x xs ih =>
    rw [List.pairwise_cons] at h
    have hn : hasKeyB key xs (key x) = false := by
      by_contra hc
      have : hasKeyB key xs (key x) = true := by
        revert hc; cases hasKeyB key xs (key x) <;> simp
      obtain ⟨y, hy, hk⟩ := (hasKeyB_iff key xs (key x)).mp this
      exact h.1 y hy hk.symm
    unfold keepLastBy
    rw [hn]
    simp [ih h.2]

theorem keepLastBy_idem {α : Type} (key : α → String) (l : List α) :
    keepLastBy key (keepLastBy key l) = keepLastBy key l :=
  keepLastBy_eq_self key _ (keepLastBy_pairwise key l)

theorem keepLastBy_length_le {α : Type} (key : α → String) (l : List α) :
    (keepLastBy key l).length ≤ l.length :=
  (keepLastBy_sublist key l).length_le

theorem keepLastBy_length_eq_iff {α : Type} (key : α → String) (l : List α) :
    (keepLastBy key l).length = l.length ↔ l.Pairwise (fun a b => key a ≠ key b) := by
  induction l with
  | nil => simp [keepLastBy]
  | cons x xs ih =>
    unfold keepLastBy
    by_cases h : hasKeyB key xs (key x)
    · rw [if_pos h]
      constructor
      · intro hlen
        exact absurd hlen
          (Nat.ne_of_lt (Nat.lt_succ_of_le (keepLastBy_length_le key xs)))
      · intro hp
        rw [List.pairwise_cons] at hp
        obtain ⟨y, hy, hk⟩ := (hasKeyB_iff key xs (key x)).mp h
        exact absurd hk.symm (hp.1 y hy)
    · rw [if_neg h]
      rw [List.length_cons, List.length_cons, Nat.succ_inj, ih, List.pairwise_cons]
      constructor
      · intro hp
        refine ⟨?_, hp⟩
        intro y hy hkeq
        have : hasKeyB key xs (key x) = true :=
          (hasKeyB_iff key xs (key x)).mpr ⟨y, hy, hkeq.symm⟩
        rw [this] at h
        exact h rfl
      · intro hp
        exact hp.2

theorem keepLastBy_cons {α : Type} (key : α → String) (x : α) (xs : List α) :
    keepLastBy key (x :: xs)
      = if hasKeyB key xs (key x) then keepLastBy key xs else x :: keepLastBy key xs := rfl

theorem keepLastBy_append {α : Type} (key : α → String) (u v : List α) :
    keepLastBy key (u ++ v)
      = filterNotIn key v (keepLastBy key u) ++ keepLastBy key v := by
  induction u with
  | nil => simp [keepLastBy, filterNotIn]
  | cons x xs ih =>
    rw [List.cons_append, keepLastBy_cons key x (xs ++ v), keepLastBy_cons key x xs,
      hasKeyB_append]
    by_cases h1 : hasKeyB key xs (key x) = true
    · rw [h1, Bool.true_or, if_pos rfl, if_pos rfl]
      exact ih
    · rw [Bool.not_eq_true] at h1
      rw [h1, Bool.false_or, if_neg (by decide : ¬ (false = true))]
      by_cases h2 : hasKeyB key v (key x) = true
      · rw [h2, if_pos rfl, ih]
        unfold filterNotIn
        rw [List.filter_cons]
        simp [h2]
      · rw [Bool.not_eq_true] at h2
        rw [h2, if_neg (by decide : ¬ (false = true)), ih]
        unfold filterNotIn
        rw [List.filter_cons]
        simp [h2]

/-! # Claim C1: one outcome per (deduplicated) enrollment row -/

theorem runRows_ok_length (f : CadRow → Except RunAbort Outcome) :
    ∀ (l : List CadRow) (os : List Outcome),
      runRows f l = .ok os → os.length = l.length := by
  intro l
  induction l with
  | nil =>
    intro os h
    simp only [runRows] at h
    cases h
    rfl
  | cons c cs ih =>
    intro os h
    cases hf : f c with
    | error e =>
      simp only [runRows, hf] at h
      exact Except.noConfusion h
    | ok o =>
      cases hr : runRows f cs with
      | error e =>
        simp only [runRows, hf, hr] at h
        exact Except.noConfusion h
      | ok os2 =>
        simp only [runRows, hf, hr] at h
        cases h
        simp [ih os2 hr]

theorem runRows_error (f : CadRow → Except RunAbort Outcome) :
    ∀ l : List CadRow, (∃ c ∈ l, ∃ e, f c = .error e) →
      ∃ e, runRows f l = .error e := by
  intro l
  induction l with
  | nil =>
    rintro ⟨c, hc, _⟩
    cases hc
  | cons a as ih =>
    rintro ⟨c, hc, e, he⟩
    cases hf : f a with
    | error e2 =>
      exact ⟨e2, by simp only [runRows, hf]⟩
    | ok o =>
      have hmem : c ∈ as := by
        rcases List.mem_cons.mp hc with h | h
        · subst h
          rw [hf] at he
          exact Except.noConfusion he
        · exact h
      obtain ⟨e2, hre⟩ := ih ⟨c, hmem, e, he⟩
      exact ⟨e2, by simp only [runRows, hf, hre]⟩

/-- Claim C1 counterexample: two loaded cadastro rows share the canonical
identifier `"1"`; the (completing) run produces one outcome, not two — the
keep-last dedup of line 171 silently drops the earlier row, so the outcome
count is not the loaded row count. -/
theorem claim_C1_counterexample :
    processAll (fun _ _ => 0) (fun _ => none) []
        ([⟨"1", "A", "D", 0⟩, ⟨"1", "B", "D", 0⟩] : List CadRow)
      = Except.ok [unmatchedOutcome ⟨"1", "B", "D", 0⟩] ∧
    ([unmatchedOutcome (⟨"1", "B", "D", 0⟩ : CadRow)] : List Outcome).length = 1 ∧
    ([⟨"1", "A", "D", 0⟩, ⟨"1", "B", "D", 0⟩] : List CadRow).length = 2 ∧
    (1 : Nat) ≠ 2 :=
  ⟨rfl, rfl, rfl, by decide⟩

/-- Claim C1 amended: when the run completes, it produces exactly one
outcome per enrollment row surviving the CPF dedup of line 171 (no
fan-out, no drops after dedup), and the outcome count equals the loaded
row count precisely when no two loaded rows share a canonical identifier;
but if any surviving row takes the fuzzy-accept branch the whole run
aborts (AttributeError at line 253, exit 1) with no outcomes at all. -/
theorem claim_C1_outcomeCount (scorer : String → String → Nat)
    (parse : String → Option ℚ) (rows : List ConsRow) (cads : List CadRow) :
    (∀ os, processAll scorer parse rows cads = Except.ok os →
      (os.length = (dedupCad cads).length ∧
        ((dedupCad cads).length = cads.length ↔
          cads.Pairwise (fun a b => a.cpf ≠ b.cpf)))) ∧
    ((∃ c ∈ dedupCad cads,
        matchOne scorer parse rows c = Except.error RunAbort.attrError) →
      ∃ e, processAll scorer parse rows cads = Except.error e) := by
  constructor
  · intro os h
    refine ⟨runRows_ok_length (matchOne scorer parse rows) (dedupCad cads) os h, ?_⟩
    exact keepLastBy_length_eq_iff (fun c : CadRow => c.cpf) cads
  · rintro ⟨c, hc, he⟩
    exact runRows_error (matchOne scorer parse rows) (dedupCad cads)
      ⟨c, hc, RunAbort.attrError, he⟩

/-- Claim C1 amended, witness: on two distinct-identifier rows and an
empty scoring table the run completes with exactly two outcomes, and the
count equality holds together with pairwise-distinct identifiers. -/
theorem claim_C1_witness :
    processAll (fun _ _ => 0) (fun _ => none) []
        ([⟨"1", "A", "D", 0⟩, ⟨"2", "B", "D", 0⟩] : List CadRow)
      = Except.ok [unmatchedOutcome ⟨"1", "A", "D", 0⟩,
          unmatchedOutcome ⟨"2", "B", "D", 0⟩] ∧
    ([unmatchedOutcome (⟨"1", "A", "D", 0⟩ : CadRow),
        unmatchedOutcome (⟨"2", "B", "D", 0⟩ : CadRow)] : List Outcome).length
      = (dedupCad ([⟨"1", "A", "D", 0⟩, ⟨"2", "B", "D", 0⟩] : List CadRow)).length ∧
    ((dedupCad ([⟨"1", "A", "D", 0⟩, ⟨"2", "B", "D", 0⟩] : List CadRow)).length
        = ([⟨"1", "A", "D", 0⟩, ⟨"2", "B", "D", 0⟩] : List CadRow).length ↔
      ([⟨"1", "A", "D", 0⟩, ⟨"2", "B", "D", 0⟩] : List CadRow).Pairwise
        (fun a b => a.cpf ≠ b.cpf)) :=
  ⟨rfl,
    ((claim_C1_outcomeCount (fun _ _ => 0) (fun _ => none) []
        ([⟨"1", "A", "D", 0⟩, ⟨"2", "B", "D", 0⟩] : List CadRow)).1 _ rfl).1,
    ((claim_C1_outcomeCount (fun _ _ => 0) (fun _ => none) []
        ([⟨"1", "A", "D", 0⟩, ⟨"2", "B", "D", 0⟩] : List CadRow)).1 _ rfl).2⟩

/-! # Claim C5: which outcomes feed the ledger -/

/-- Claim C5 counterexample: an unmatched outcome (`CADASTRADO_NAO_PONTUOU`)
does contribute a new ledger entry — `df_hist_new` is built from every
result row (lines 342-348), so its length is 1, not the 0 the claim
requires for a batch of one unmatched outcome. -/
theorem claim_C5_counterexample :
    (buildHistNew ([⟨"D", "N", "1", 2, PFloat.num 0, MT.naoPontuou⟩] : List Outcome) 7).length
        = 1 ∧
    Outcome.matchType ⟨"D", "N", "1", 2, PFloat.num 0, MT.naoPontuou⟩ = MT.naoPontuou ∧
    (1 : Nat) ≠ 0 := by
  decide

/-- Claim C5 amended: the batch of new ledger entries contains one entry
per outcome — matched and unmatched alike — keyed by the outcome's CPF
field alone (an empty identifier yields the literal key `""`, never the
name), and the merged ledger never holds two entries with the same CPF. -/
theorem claim_C5_ledgerEntries (old : List HistEntry) (results : List Outcome) (t : Nat) :
    ((buildHistNew results t).map (fun e => e.cpf) = results.map (fun o => o.cpf)) ∧
    (mergeHist old (buildHistNew results t)).Pairwise (fun a b => a.cpf ≠ b.cpf) := by
  constructor
  · unfold buildHistNew
    rw [List.map_map]
    rfl
  · exact keepLastBy_pairwise (fun e : HistEntry => e.cpf) _

/-! # Claim C3: fuzzy tier accepted only at the exact threshold -/

theorem scanBest_fst (score : String → Nat) (names : List String) :
    ∀ (i : Nat) (acc : Int × Option Nat),
      (scanBest score names i acc).1
        = names.foldl (fun b n => max b ((score n : Int))) acc.1 := by
  induction names with
  | nil => intro i acc; rfl
  | cons n ns ih =>
    intro i acc
    obtain ⟨bs, bi⟩ := acc
    simp only [scanBest, List.foldl_cons]
    by_cases h : (score n : Int) > bs
    · rw [if_pos h, ih]
      rw [max_eq_right (le_of_lt h)]
    · rw [if_neg h, ih]
      rw [max_eq_left (not_lt.mp h)]

/-- Claim C3: a row that reaches the fuzzy tier (both exact tiers missed,
given as hypotheses) takes the fuzzy-accept branch — which by the
line-253 bug aborts the whole run — only when the best token-set score
over all scoring-table names is exactly the threshold 100; whenever the
best score is below 100 the row is `CADASTRADO_NAO_PONTUOU`, and no row
is ever resolved `NOME_FUZZY_100`.  (The scan starts at `-1`, so the fold
below is exactly the loop of lines 232-238.) -/
theorem claim_C3_fuzzyThreshold (scorer : String → String → Nat) (parse : String → Option ℚ)
    (rows : List ConsRow) (cad : CadRow)
    (h1 : (if cad.cpf = "" then none else (cons_by_cpf rows).lookup cad.cpf) = none)
    (h2 : (if cad.nome = "" then none else (cons_by_name rows).lookup cad.nome) = none) :
    (matchOne scorer parse rows cad = Except.error RunAbort.attrError →
      (rows.map (fun r => ((scorer cad.nome r.nome : Int)))).foldl max (-1) = 100) ∧
    ((rows.map (fun r => ((scorer cad.nome r.nome : Int)))).foldl max (-1) < 100 →
      matchOne scorer parse rows cad = Except.ok (unmatchedOutcome cad)) ∧
    (∀ o, matchOne scorer parse rows cad = Except.ok o →
      o.matchType ≠ MT.nomeFuzzy100) := by
  have hs : (scanBest (scorer cad.nome) (rows.map (fun x => x.nome)) 0 (-1, none)).1
      = (rows.map (fun r => ((scorer cad.nome r.nome : Int)))).foldl max (-1) := by
    rw [scanBest_fst]
    rw [List.foldl_map, List.foldl_map]
  unfold matchOne
  rw [h1, h2]
  dsimp only
  by_cases hcond : cad.nome ≠ "" ∧ rows ≠ []
  · rw [if_pos hcond]
    by_cases hbs : (scanBest (scorer cad.nome) (rows.map (fun x => x.nome)) 0 (-1, none)).1
        = 100
    · rw [if_pos hbs]
      refine ⟨fun _ => by rw [← hs]; exact hbs, fun hlt => ?_, fun o ho => ?_⟩
      · exfalso
        rw [hs] at hbs
        omega
      · exact Except.noConfusion ho
    · rw [if_neg hbs]
      refine ⟨fun he => Except.noConfusion he, fun _ => rfl, fun o ho => ?_⟩
      have h3 : unmatchedOutcome cad = o := by
        injection ho with h4
      rw [← h3]
      simp [unmatchedOutcome]
  · rw [if_neg hcond]
    refine ⟨fun he => Except.noConfusion he, fun _ => rfl, fun o ho => ?_⟩
    have h3 : unmatchedOutcome cad = o := by
      injection ho with h4
    rw [← h3]
    simp [unmatchedOutcome]

/-- Claim C3 witness: a single scoring row at score 99 (below the
threshold) leaves a concrete enrollment row unmatched, without aborting
the run. -/
theorem claim_C3_witness :
    ((if CadRow.cpf ⟨"", "ANA", "D", 0⟩ = "" then none
      else (cons_by_cpf ([⟨"", "X", 3, MCell.mnum 7⟩] : List ConsRow)).lookup
        (CadRow.cpf ⟨"", "ANA", "D", 0⟩)) = none) ∧
    ((if CadRow.nome ⟨"", "ANA", "D", 0⟩ = "" then none
      else (cons_by_name ([⟨"", "X", 3, MCell.mnum 7⟩] : List ConsRow)).lookup
        (CadRow.nome ⟨"", "ANA", "D", 0⟩)) = none) ∧
    ((([⟨"", "X", 3, MCell.mnum 7⟩] : List ConsRow).map
        (fun r => (((fun _ _ => 99) : String → String → Nat) "ANA" r.nome : Int))).foldl
          max (-1) < 100) ∧
    matchOne (fun _ _ => 99) (fun _ => none) ([⟨"", "X", 3, MCell.mnum 7⟩] : List ConsRow)
      ⟨"", "ANA", "D", 0⟩ = Except.ok (unmatchedOutcome ⟨"", "ANA", "D", 0⟩) := by
  refine ⟨by decide, by decide, by decide, ?_⟩
  exact (claim_C3_fuzzyThreshold (fun _ _ => 99) (fun _ => none)
    ([⟨"", "X", 3, MCell.mnum 7⟩] : List ConsRow) ⟨"", "ANA", "D", 0⟩
    (by decide) (by decide)).2.1 (by decide)

/-! # Claim C7: column resolution and the fatal-abort condition -/

theorem startsWithL_append_self (n r : List Char) : startsWithL n (n ++ r) = true := by
  induction n with
  | nil => rfl
  | cons a as ih => simp [startsWithL, ih]

theorem containsSub_of_startsWith (n h : List Char) (hs : startsWithL n h = true) :
    containsSub n h = true := by
  cases h with
  | nil => simpa [containsSub] using hs
  | cons c t => simp [containsSub, hs]

theorem cadCpfCol_none_iff (cols : List String) :
    cadCpfCol cols = none ↔
      ∀ c ∈ cols, containsSub "cpf".data (lowerL c) = false ∧
        containsSub "nome".data (lowerL c) = false ∧
        containsSub "consultor".data (lowerL c) = false := by
  unfold cadCpfCol find_col
  rw [Option.or_eq_none, Option.or_eq_none, List.findSome?_eq_none_iff]
  constructor
  · rintro ⟨_, hs2, hs3⟩ c hc
    rw [List.find?_eq_none] at hs2 hs3
    have h2 := hs2 c hc
    have h3 := hs3 c hc
    simp only [Bool.or_eq_true, not_or, Bool.not_eq_true] at h2 h3
    exact ⟨h2, h3.1, h3.2⟩
  · intro hP
    refine ⟨?_, ?_, ?_⟩
    · intro cand hcand
      rw [List.find?_eq_none]
      intro c hc hbeq
      have heq : lowerL c = lowerL cand := by simpa using hbeq
      simp only [List.mem_cons, List.not_mem_nil, or_false] at hcand
      subst hcand
      have hct : containsSub "cpf".data (lowerL c) = true := by
        rw [heq]; decide
      rw [(hP c hc).1] at hct
      exact absurd hct (by decide)
    · rw [List.find?_eq_none]
      intro c hc hcpf
      rw [(hP c hc).1] at hcpf
      exact absurd hcpf (by decide)
    · rw [List.find?_eq_none]
      intro c hc hb
      rw [Bool.or_eq_true] at hb
      rcases hb with hb | hb
      · rw [(hP c hc).2.1] at hb; exact absurd hb (by decide)
      · rw [(hP c hc).2.2] at hb; exact absurd hb (by decide)

theorem cadNomeCol_none_iff (cols : List String) :
    cadNomeCol cols = none ↔
      ∀ c ∈ cols, containsSub "cpf".data (lowerL c) = false ∧
        containsSub "nome".data (lowerL c) = false ∧
        containsSub "consultor".data (lowerL c) = false := by
  unfold cadNomeCol find_col
  rw [Option.or_eq_none, Option.or_eq_none, List.findSome?_eq_none_iff]
  constructor
  · rintro ⟨_, hs2, hs3⟩ c hc
    rw [List.find?_eq_none] at hs2 hs3
    have h2 := hs2 c hc
    have h3 := hs3 c hc
    simp only [Bool.or_eq_true, not_or, Bool.not_eq_true] at h2 h3
    exact ⟨h2, h3.1, h3.2⟩
  · intro hP
    refine ⟨?_, ?_, ?_⟩
    · intro cand hcand
      rw [List.find?_eq_none]
      intro c hc hbeq
      have heq : lowerL c = lowerL cand := by simpa using hbeq
      have hct : containsSub "nome".data (lowerL c) = true := by
        simp only [List.mem_cons, List.not_mem_nil, or_false] at hcand
        rcases hcand with h | h | h <;> (subst h; rw [heq]; decide)
      rw [(hP c hc).2.1] at hct
      exact absurd hct (by decide)
    · rw [List.find?_eq_none]
      intro c hc hcpf
      rw [(hP c hc).1] at hcpf
      exact absurd hcpf (by decide)
    · rw [List.find?_eq_none]
      intro c hc hb
      rw [Bool.or_eq_true] at hb
      rcases hb with hb | hb
      · rw [(hP c hc).2.1] at hb; exact absurd hb (by decide)
      · rw [(hP c hc).2.2] at hb; exact absurd hb (by decide)

/-- Claim C7 counterexample: a cadastros table whose only column is
`"Nome Completo"` has no CPF-like column at all, yet `find_col` resolves
the required CPF field to the name column (the substring fallback of lines
121-127) and the run does not abort — the missing required column is
silently substituted instead of raising a fatal input error. -/
theorem claim_C7_counterexample :
    find_col ["Nome Completo"] ["CPF"] = some "Nome Completo" ∧
    cadColsFatal ["Nome Completo"] = false ∧
    containsSub "cpf".data (lowerL "Nome Completo") = false := by
  decide

/-- Claim C7 amended: the fatal required-columns check of lines 157-160
fires if and only if NO column of the cadastros table contains `"cpf"`,
`"nome"` or `"consultor"` (lower-cased) in its header; whenever any such
column exists, both required fields resolve — possibly to a heuristically
substituted column — and this check passes (the run may still abort later
for unrelated reasons, such as the line-253 fuzzy crash).  Scoring-table
identifier/name columns never trigger this check (lines 162-164 and
174-182 merely default them). -/
theorem claim_C7_fatalCondition (cols : List String) :
    cadColsFatal cols = true ↔
      ∀ c ∈ cols, containsSub "cpf".data (lowerL c) = false ∧
        containsSub "nome".data (lowerL c) = false ∧
        containsSub "consultor".data (lowerL c) = false := by
  unfold cadColsFatal
  rw [Bool.or_eq_true, Option.isNone_iff_eq_none, Option.isNone_iff_eq_none,
    cadCpfCol_none_iff, cadNomeCol_none_iff]
  exact or_self_iff

/-! # Claim C6: ledger merge idempotence — sorting lemmas -/

theorem insE_cons (x y : HistEntry) (ys : List HistEntry) :
    insE x (y :: ys)
      = if y.dataImport < x.dataImport then y :: insE x ys else x :: y :: ys := rfl

theorem mem_insE {x y : HistEntry} : ∀ {l : List HistEntry}, y ∈ insE x l ↔ y = x ∨ y ∈ l := by
  intro l
  induction l with
  | nil => simp [insE]
  | cons z zs ih =>
    rw [insE_cons]
    by_cases h : z.dataImport < x.dataImport
    · rw [if_pos h]
      simp only [List.mem_cons, ih]
      tauto
    · rw [if_neg h]
      simp only [List.mem_cons]

theorem sortedD_insE (x : HistEntry) : ∀ {l : List HistEntry}, SortedD l → SortedD (insE x l) := by
  intro l
  induction l with
  | nil =>
    intro _
    simp [insE, SortedD]
  | cons z zs ih =>
    intro h
    unfold SortedD at h
    rw [List.pairwise_cons] at h
    rw [insE_cons]
    by_cases hlt : z.dataImport < x.dataImport
    · rw [if_pos hlt]
      unfold SortedD
      rw [List.pairwise_cons]
      refine ⟨?_, ih h.2⟩
      intro y hy
      rcases mem_insE.mp hy with rfl | hy
      · exact le_of_lt hlt
      · exact h.1 y hy
    · rw [if_neg hlt]
      unfold SortedD
      rw [List.pairwise_cons]
      refine ⟨?_, List.pairwise_cons.mpr h⟩
      intro y hy
      rcases List.mem_cons.mp hy with rfl | hy
      · exact Nat.le_of_not_lt hlt
      · exact le_trans (Nat.le_of_not_lt hlt) (h.1 y hy)

theorem sortedD_ssortE : ∀ l : List HistEntry, SortedD (ssortE l) := by
  intro l
  induction l with
  | nil => simp [ssortE, SortedD]
  | cons x xs ih => exact sortedD_insE x ih

theorem mem_ssortE {y : HistEntry} : ∀ {l : List HistEntry}, y ∈ ssortE l ↔ y ∈ l := by
  intro l
  induction l with
  | nil => simp [ssortE]
  | cons x xs ih =>
    show y ∈ insE x (ssortE xs) ↔ _
    rw [mem_insE, ih, List.mem_cons]

theorem insE_all_ge (x : HistEntry) (l : List HistEntry)
    (h : ∀ y ∈ l, x.dataImport ≤ y.dataImport) : insE x l = x :: l := by
  cases l with
  | nil => rfl
  | cons z zs =>
    rw [insE_cons, if_neg (Nat.not_lt.mpr (h z (List.mem_cons_self z zs)))]

theorem ssortE_eq_of_sorted : ∀ {l : List HistEntry}, SortedD l → ssortE l = l := by
  intro l
  induction l with
  | nil => intro _; rfl
  | cons x xs ih =>
    intro h
    unfold SortedD at h
    rw [List.pairwise_cons] at h
    show insE x (ssortE xs) = x :: xs
    rw [ih h.2]
    exact insE_all_ge x xs h.1

theorem sortedD_of_uniform (B : List HistEntry) (t : Nat)
    (hB : ∀ b ∈ B, b.dataImport = t) : SortedD B := by
  induction B with
  | nil => simp [SortedD]
  | cons b bs ih =>
    unfold SortedD
    rw [List.pairwise_cons]
    refine ⟨?_, ih (fun y hy => hB y (List.mem_cons_of_mem b hy))⟩
    intro y hy
    rw [hB b (List.mem_cons_self b bs), hB y (List.mem_cons_of_mem b hy)]

theorem insE_all_lt (x : HistEntry) (u r : List HistEntry)
    (h : ∀ y ∈ u, y.dataImport < x.dataImport) : insE x (u ++ r) = u ++ insE x r := by
  induction u with
  | nil => rfl
  | cons a u' ih =>
    rw [List.cons_append, insE_cons, if_pos (h a (List.mem_cons_self a u')),
      ih (fun y hy => h y (List.mem_cons_of_mem a hy)), List.cons_append]

theorem insE_append_ge (x : HistEntry) (u rest : List HistEntry)
    (h : ∀ y ∈ rest, x.dataImport ≤ y.dataImport) :
    insE x (u ++ rest) = insE x u ++ rest := by
  induction u with
  | nil =>
    rw [List.nil_append, insE_all_ge x rest h]
    rfl
  | cons a u' ih =>
    rw [List.cons_append, insE_cons, insE_cons]
    by_cases hlt : a.dataImport < x.dataImport
    · rw [if_pos hlt, if_pos hlt, ih, List.cons_append]
    · rw [if_neg hlt, if_neg hlt]
      simp [List.cons_append]

theorem ssortE_append (u v : List HistEntry) :
    ssortE (u ++ v) = u.foldr insE (ssortE v) := by
  induction u with
  | nil => rfl
  | cons x xs ih =>
    show insE x (ssortE (xs ++ v)) = insE x (xs.foldr insE (ssortE v))
    rw [ih]

theorem insE_filter_pos (p : HistEntry → Bool) (x : HistEntry) :
    ∀ {l : List HistEntry}, SortedD l → p x = true →
      (insE x l).filter p = insE x (l.filter p) := by
  intro l
  induction l with
  | nil =>
    intro _ hp
    simp [insE, List.filter_cons, hp]
  | cons y ys ih =>
    intro hs hp
    unfold SortedD at hs
    rw [List.pairwise_cons] at hs
    rw [insE_cons]
    by_cases hlt : y.dataImport < x.dataImport
    · rw [if_pos hlt]
      rw [List.filter_cons]
      by_cases hpy : p y = true
      · rw [if_pos hpy, List.filter_cons, if_pos hpy]
        rw [ih hs.2 hp]
        rw [insE_cons, if_pos hlt]
      · rw [if_neg hpy, List.filter_cons, if_neg hpy]
        exact ih hs.2 hp
    · rw [if_neg hlt]
      rw [List.filter_cons, if_pos hp, List.filter_cons]
      by_cases hpy : p y = true
      · rw [if_pos hpy]
        rw [insE_all_ge]
        intro z hz
        rcases List.mem_cons.mp hz with rfl | hz
        · exact Nat.le_of_not_lt hlt
        · have hzys : z ∈ ys := (List.filter_sublist ys).subset hz
          exact le_trans (Nat.le_of_not_lt hlt) (hs.1 z hzys)
      · rw [if_neg hpy]
        rw [insE_all_ge]
        intro z hz
        have hzys : z ∈ ys := (List.filter_sublist ys).subset hz
        exact le_trans (Nat.le_of_not_lt hlt) (hs.1 z hzys)

theorem insE_filter_neg (p : HistEntry → Bool) (x : HistEntry) :
    ∀ (l : List HistEntry), p x = false →
      (insE x l).filter p = l.filter p := by
  intro l
  induction l with
  | nil =>
    intro hp
    simp [insE, List.filter_cons, hp]
  | cons y ys ih =>
    intro hp
    rw [insE_cons]
    by_cases hlt : y.dataImport < x.dataImport
    · rw [if_pos hlt]
      rw [List.filter_cons, List.filter_cons]
      by_cases hpy : p y = true
      · rw [if_pos hpy, if_pos hpy, ih hp]
      · rw [if_neg hpy, if_neg hpy, ih hp]
    · rw [if_neg hlt]
      rw [List.filter_cons, if_neg (by simp [hp])]

theorem ssortE_zones (B : List HistEntry) (t : Nat)
    (hB : ∀ b ∈ B, b.dataImport = t) :
    ∀ L : List HistEntry,
      ssortE (L ++ B)
        = (ssortE L).filter (fun e => decide (e.dataImport < t))
          ++ ((ssortE L).filter (fun e => decide (e.dataImport = t))
          ++ (B ++ (ssortE L).filter (fun e => decide (t < e.dataImport)))) := by
  intro L
  induction L with
  | nil =>
    show ssortE B = _
    rw [ssortE_eq_of_sorted (sortedD_of_uniform B t hB)]
    simp [ssortE]
  | cons x L' ih =>
    have hsL' : SortedD (ssortE L') := sortedD_ssortE L'
    have hzTmem : ∀ y ∈ (ssortE L').filter (fun e => decide (e.dataImport = t)),
        y.dataImport = t := by
      intro y hy
      have := List.of_mem_filter hy
      simpa using this
    have hzAmem : ∀ y ∈ (ssortE L').filter (fun e => decide (e.dataImport < t)),
        y.dataImport < t := by
      intro y hy
      have := List.of_mem_filter hy
      simpa using this
    have hzCmem : ∀ y ∈ (ssortE L').filter (fun e => decide (t < e.dataImport)),
        t < y.dataImport := by
      intro y hy
      have := List.of_mem_filter hy
      simpa using this
    show insE x (ssortE (L' ++ B)) = _
    rw [ih, show ssortE (x :: L') = insE x (ssortE L') from rfl]
    rcases Nat.lt_trichotomy x.dataImport t with hx | hx | hx
    · -- x strictly before the batch stamp
      rw [insE_filter_pos _ x hsL' (by simpa using hx)]
      rw [insE_filter_neg _ x _ (by simp; omega)]
      rw [insE_filter_neg _ x _ (by simp; omega)]
      rw [insE_append_ge]
      intro y hy
      rcases List.mem_append.mp hy with hy | hy
      · exact le_of_lt (lt_of_lt_of_le hx (le_of_eq (hzTmem y hy).symm))
      rcases List.mem_append.mp hy with hy | hy
      · exact le_of_lt (lt_of_lt_of_le hx (le_of_eq (hB y hy).symm))
      · exact le_of_lt (lt_trans hx (hzCmem y hy))
    · -- x carries exactly the batch stamp
      rw [insE_filter_neg _ x _ (by simp; omega)]
      rw [insE_filter_pos _ x hsL' (by simpa using hx)]
      rw [insE_filter_neg _ x _ (by simp; omega)]
      rw [insE_all_ge x ((ssortE L').filter (fun e => decide (e.dataImport = t)))
        (fun y hy => le_of_eq (hx.trans (hzTmem y hy).symm))]
      rw [insE_all_lt x _ _
        (fun y hy => lt_of_lt_of_le (hzAmem y hy) (le_of_eq hx.symm))]
      rw [insE_all_ge]
      · simp
      · intro y hy
        rcases List.mem_append.mp hy with hy | hy
        · exact le_of_eq (hx.trans (hzTmem y hy).symm)
        rcases List.mem_append.mp hy with hy | hy
        · exact le_of_eq (hx.trans (hB y hy).symm)
        · exact le_of_lt (lt_of_le_of_lt (le_of_eq hx) (hzCmem y hy))
    · -- x strictly after the batch stamp
      rw [insE_filter_neg _ x _ (by simp; omega)]
      rw [insE_filter_neg _ x _ (by simp; omega)]
      rw [insE_filter_pos _ x hsL' (by simpa using hx)]
      rw [insE_all_lt x _ _ (fun y hy => lt_trans (hzAmem y hy) hx)]
      rw [insE_all_lt x _ _ (fun y hy => lt_of_le_of_lt (le_of_eq (hzTmem y hy)) hx)]
      rw [insE_all_lt x _ _ (fun y hy => lt_of_le_of_lt (le_of_eq (hB y hy)) hx)]

theorem filterNotIn_mem {α : Type} {key : α → String} {v u : List α} {x : α}
    (h : x ∈ filterNotIn key v u) : x ∈ u ∧ hasKeyB key v (key x) = false := by
  unfold filterNotIn at h
  have h1 := List.mem_filter.mp h
  refine ⟨h1.1, ?_⟩
  simpa using h1.2

theorem filterNotIn_eq_self {α : Type} (key : α → String) (v u : List α)
    (h : ∀ x ∈ u, hasKeyB key v (key x) = false) : filterNotIn key v u = u := by
  unfold filterNotIn
  rw [List.filter_eq_self]
  intro a ha
  simp [h a ha]

theorem filterNotIn_eq_nil {α : Type} (key : α → String) (v u : List α)
    (h : ∀ x ∈ u, hasKeyB key v (key x) = true) : filterNotIn key v u = [] := by
  unfold filterNotIn
  rw [List.filter_eq_nil_iff]
  intro a ha
  simp [h a ha]

theorem filterNotIn_append_left {α : Type} (key : α → String) (v u1 u2 : List α) :
    filterNotIn key v (u1 ++ u2) = filterNotIn key v u1 ++ filterNotIn key v u2 :=
  List.filter_append u1 u2

theorem filterNotIn_keepLast_inner {α : Type} (key : α → String) (w u : List α) :
    filterNotIn key (keepLastBy key w) u = filterNotIn key w u := by
  unfold filterNotIn
  apply List.filter_congr
  intro a _
  rw [hasKeyB_keepLastBy]

theorem filterNotIn_sublist {α : Type} (key : α → String) (v u : List α) :
    (filterNotIn key v u).Sublist u :=
  List.filter_sublist u

/-- Under the STABLE tie order built into `ssortE` — the fixed design-level
tie order (existing rows before the appended batch at equal stamps), not a
guarantee of the code's `sort_values`, whose default unstable quicksort
leaves same-stamp order unspecified — merging the same uniformly-stamped
batch a second time leaves the ledger exactly as it was after the first
merge (size, content and order unchanged).  Model-level lemma only: for
the code itself the same-stamp tie order, and with it this full-list
idempotence, is unspecified. -/
theorem mergeHist_idem_of_stable (L B : List HistEntry) (t : Nat)
    (hB : ∀ b ∈ B, b.dataImport = t) :
    mergeHist (mergeHist L B) B = mergeHist L B := by
  have hM := ssortE_zones B t hB L
  set A := (ssortE L).filter (fun e => decide (e.dataImport < t)) with hAdef
  set T := (ssortE L).filter (fun e => decide (e.dataImport = t)) with hTdef
  set C := (ssortE L).filter (fun e => decide (t < e.dataImport)) with hCdef
  have hAd : ∀ e ∈ A, e.dataImport < t := by
    intro e he
    rw [hAdef] at he
    have := List.of_mem_filter he
    simpa using this
  have hTd : ∀ e ∈ T, e.dataImport = t := by
    intro e he
    rw [hTdef] at he
    have := List.of_mem_filter he
    simpa using this
  have hCd : ∀ e ∈ C, t < e.dataImport := by
    intro e he
    rw [hCdef] at he
    have := List.of_mem_filter he
    simpa using this
  have hR : mergeHist L B
      = filterNotIn (fun e : HistEntry => e.cpf) (T ++ (B ++ C))
          (keepLastBy (fun e : HistEntry => e.cpf) A)
        ++ (filterNotIn (fun e : HistEntry => e.cpf) (B ++ C)
              (keepLastBy (fun e : HistEntry => e.cpf) T)
          ++ (filterNotIn (fun e : HistEntry => e.cpf) C
                (keepLastBy (fun e : HistEntry => e.cpf) B)
            ++ keepLastBy (fun e : HistEntry => e.cpf) C)) := by
    show keepLastBy (fun e : HistEntry => e.cpf) (ssortE (L ++ B)) = _
    rw [hM, keepLastBy_append, keepLastBy_append, keepLastBy_append]
  set P1 := filterNotIn (fun e : HistEntry => e.cpf) (T ++ (B ++ C))
      (keepLastBy (fun e : HistEntry => e.cpf) A) with hP1def
  set P2 := filterNotIn (fun e : HistEntry => e.cpf) (B ++ C)
      (keepLastBy (fun e : HistEntry => e.cpf) T) with hP2def
  set P3 := filterNotIn (fun e : HistEntry => e.cpf) C
      (keepLastBy (fun e : HistEntry => e.cpf) B) with hP3def
  set P4 := keepLastBy (fun e : HistEntry => e.cpf) C with hP4def
  have hP1 : ∀ e ∈ P1, e ∈ A ∧
      hasKeyB (fun e : HistEntry => e.cpf) (T ++ (B ++ C)) e.cpf = false := by
    intro e he
    rw [hP1def] at he
    have h2 := filterNotIn_mem he
    exact ⟨mem_of_mem_keepLastBy h2.1, h2.2⟩
  have hP2 : ∀ e ∈ P2, e ∈ T ∧
      hasKeyB (fun e : HistEntry => e.cpf) (B ++ C) e.cpf = false := by
    intro e he
    rw [hP2def] at he
    have h2 := filterNotIn_mem he
    exact ⟨mem_of_mem_keepLastBy h2.1, h2.2⟩
  have hP3 : ∀ e ∈ P3, e ∈ B ∧
      hasKeyB (fun e : HistEntry => e.cpf) C e.cpf = false := by
    intro e he
    rw [hP3def] at he
    have h2 := filterNotIn_mem he
    exact ⟨mem_of_mem_keepLastBy h2.1, h2.2⟩
  have hP4 : ∀ e ∈ P4, e ∈ C := by
    intro e he
    rw [hP4def] at he
    exact mem_of_mem_keepLastBy he
  have hP1split : ∀ e ∈ P1,
      hasKeyB (fun e : HistEntry => e.cpf) T e.cpf = false ∧
      hasKeyB (fun e : HistEntry => e.cpf) B e.cpf = false ∧
      hasKeyB (fun e : HistEntry => e.cpf) C e.cpf = false := by
    intro e he
    have h2 := (hP1 e he).2
    rw [hasKeyB_append, hasKeyB_append] at h2
    simp only [Bool.or_eq_false_iff] at h2
    exact ⟨h2.1, h2.2.1, h2.2.2⟩
  have hP2split : ∀ e ∈ P2,
      hasKeyB (fun e : HistEntry => e.cpf) B e.cpf = false ∧
      hasKeyB (fun e : HistEntry => e.cpf) C e.cpf = false := by
    intro e he
    have h2 := (hP2 e he).2
    rw [hasKeyB_append] at h2
    simp only [Bool.or_eq_false_iff] at h2
    exact h2
  have hsubP2T : ∀ e ∈ P2, e ∈ T := fun e he => (hP2 e he).1
  have hsubP3B : ∀ e ∈ P3, e ∈ B := fun e he => (hP3 e he).1
  have hsubP4C : ∀ e ∈ P4, e ∈ C := hP4
  -- the merged ledger is sorted by stamp
  have hs1 : List.Pairwise (fun a b : HistEntry => a.dataImport ≤ b.dataImport)
      (ssortE (L ++ B)) := sortedD_ssortE (L ++ B)
  have hRs : List.Pairwise (fun a b : HistEntry => a.dataImport ≤ b.dataImport)
      (mergeHist L B) :=
    List.Pairwise.sublist (keepLastBy_sublist _ _) hs1
  -- date zones of the merged ledger
  have hfA : (mergeHist L B).filter (fun e => decide (e.dataImport < t)) = P1 := by
    rw [hR, List.filter_append, List.filter_append, List.filter_append]
    rw [List.filter_eq_self.mpr (fun a ha => by simp [hAd a (hP1 a ha).1])]
    rw [List.filter_eq_nil_iff.mpr (fun a ha => by simp [hTd a (hP2 a ha).1])]
    rw [List.filter_eq_nil_iff.mpr (fun a ha => by simp [hB a (hP3 a ha).1])]
    rw [List.filter_eq_nil_iff.mpr (fun a ha => by
      have := hCd a (hP4 a ha)
      simp
      omega)]
    simp
  have hfT : (mergeHist L B).filter (fun e => decide (e.dataImport = t)) = P2 ++ P3 := by
    rw [hR, List.filter_append, List.filter_append, List.filter_append]
    rw [List.filter_eq_nil_iff.mpr (fun a ha => by
      have := hAd a (hP1 a ha).1
      simp
      omega)]
    rw [List.filter_eq_self.mpr (fun a ha => by simp [hTd a (hP2 a ha).1])]
    rw [List.filter_eq_self.mpr (fun a ha => by simp [hB a (hP3 a ha).1])]
    rw [List.filter_eq_nil_iff.mpr (fun a ha => by
      have := hCd a (hP4 a ha)
      simp
      omega)]
    simp
  have hfC : (mergeHist L B).filter (fun e => decide (t < e.dataImport)) = P4 := by
    rw [hR, List.filter_append, List.filter_append, List.filter_append]
    rw [List.filter_eq_nil_iff.mpr (fun a ha => by
      have := hAd a (hP1 a ha).1
      simp
      omega)]
    rw [List.filter_eq_nil_iff.mpr (fun a ha => by
      have := hTd a (hP2 a ha).1
      simp
      omega)]
    rw [List.filter_eq_nil_iff.mpr (fun a ha => by
      have := hB a (hP3 a ha).1
      simp
      omega)]
    rw [List.filter_eq_self.mpr (fun a ha => by simp [hCd a (hP4 a ha)])]
    simp
  -- second sort decomposes over the same zones
  have hM2 : ssortE (mergeHist L B ++ B) = P1 ++ ((P2 ++ P3) ++ (B ++ P4)) := by
    rw [ssortE_zones B t hB (mergeHist L B)]
    rw [ssortE_eq_of_sorted hRs]
    rw [hfA, hfT, hfC]
  -- reduce the four pieces of the second merge
  have g1 : keepLastBy (fun e : HistEntry => e.cpf) P1 = P1 := by
    apply keepLastBy_eq_self
    rw [hP1def]
    exact List.Pairwise.sublist (filterNotIn_sublist _ _ _)
      (keepLastBy_pairwise (fun e : HistEntry => e.cpf) A)
  have g2 : filterNotIn (fun e : HistEntry => e.cpf) ((P2 ++ P3) ++ (B ++ P4)) P1 = P1 := by
    apply filterNotIn_eq_self
    intro e he
    have hsp := hP1split e he
    rw [hasKeyB_append, hasKeyB_append, hasKeyB_append]
    rw [hasKeyB_false_of_subset hsubP2T hsp.1]
    rw [hasKeyB_false_of_subset hsubP3B hsp.2.1]
    rw [hsp.2.1]
    rw [hasKeyB_false_of_subset hsubP4C hsp.2.2]
    rfl
  have g3 : keepLastBy (fun e : HistEntry => e.cpf) (P2 ++ P3) = P2 ++ P3 := by
    apply keepLastBy_eq_self
    rw [List.pairwise_append]
    refine ⟨?_, ?_, ?_⟩
    · rw [hP2def]
      exact List.Pairwise.sublist (filterNotIn_sublist _ _ _)
        (keepLastBy_pairwise (fun e : HistEntry => e.cpf) T)
    · rw [hP3def]
      exact List.Pairwise.sublist (filterNotIn_sublist _ _ _)
        (keepLastBy_pairwise (fun e : HistEntry => e.cpf) B)
    · intro a ha b hb hab
      have hBf : hasKeyB (fun e : HistEntry => e.cpf) B a.cpf = false := (hP2split a ha).1
      have : hasKeyB (fun e : HistEntry => e.cpf) B a.cpf = true :=
        (hasKeyB_iff _ B a.cpf).mpr ⟨b, hsubP3B b hb, hab.symm⟩
      rw [this] at hBf
      exact Bool.noConfusion hBf
  have g4 : filterNotIn (fun e : HistEntry => e.cpf) (B ++ P4) (P2 ++ P3) = P2 := by
    rw [filterNotIn_append_left]
    rw [filterNotIn_eq_self _ _ P2 (fun e he => by
      rw [hasKeyB_append]
      rw [(hP2split e he).1]
      rw [hasKeyB_false_of_subset hsubP4C (hP2split e he).2]
      rfl)]
    rw [filterNotIn_eq_nil _ _ P3 (fun e he => by
      rw [hasKeyB_append]
      have : hasKeyB (fun e : HistEntry => e.cpf) B e.cpf = true :=
        (hasKeyB_iff _ B e.cpf).mpr ⟨e, hsubP3B e he, rfl⟩
      rw [this]
      rfl)]
    simp
  have g5 : filterNotIn (fun e : HistEntry => e.cpf) P4
      (keepLastBy (fun e : HistEntry => e.cpf) B) = P3 := by
    rw [hP4def, filterNotIn_keepLast_inner, ← hP3def]
  have g6 : keepLastBy (fun e : HistEntry => e.cpf) P4 = P4 := by
    rw [hP4def, keepLastBy_idem]
  -- assemble
  rw [show mergeHist (mergeHist L B) B
      = keepLastBy (fun e : HistEntry => e.cpf) (ssortE (mergeHist L B ++ B)) from rfl]
  rw [hM2, keepLastBy_append, g1, g2, keepLastBy_append, g3, g4,
    keepLastBy_append, g5, g6, hR]

/-! # Claim C9: idempotence of the name normalizer -/

theorem toNat_ofNatV (n : Nat) (h : n < 55296) : (Char.ofNat n).toNat = n := by
  have hv : Nat.isValidChar n := Or.inl h
  unfold Char.ofNat
  rw [dif_pos hv]
  simp [Char.ofNatAux, Char.toNat, UInt32.toNat]

theorem isWS_toNat_mem (c : Char) (h : isWS c = true) :
    c.toNat = 32 ∨ c.toNat = 9 ∨ c.toNat = 10 ∨ c.toNat = 13 ∨ c.toNat = 11 ∨
      c.toNat = 12 ∨ c.toNat = 28 ∨ c.toNat = 29 ∨ c.toNat = 30 ∨ c.toNat = 31 ∨
      c.toNat = 133 ∨ c.toNat = 160 ∨ c.toNat = 5760 ∨ c.toNat = 8192 ∨ c.toNat = 8193 ∨
      c.toNat = 8194 ∨ c.toNat = 8195 ∨ c.toNat = 8196 ∨ c.toNat = 8197 ∨ c.toNat = 8198 ∨
      c.toNat = 8199 ∨ c.toNat = 8200 ∨ c.toNat = 8201 ∨ c.toNat = 8202 ∨ c.toNat = 8232 ∨
      c.toNat = 8233 ∨ c.toNat = 8239 ∨ c.toNat = 8287 ∨ c.toNat = 12288 := by
  unfold isWS at h
  simp only [Bool.or_eq_true, beq_iff_eq] at h
  rcases h with ((((((((((((((((((((((((((((h | h) | h) | h) | h) | h) | h) | h) | h) | h) | h) | h) | h) | h) | h) | h) | h) | h) | h) | h) | h) | h) | h) | h) | h) | h) | h) | h) | h) <;>
    (subst h; decide)

theorem isWS_false_of_range (x : Char) (h1 : 33 ≤ x.toNat) (h2 : x.toNat ≤ 126) :
    isWS x = false := by
  cases hx : isWS x with
  | false => rfl
  | true =>
    exfalso
    rcases isWS_toNat_mem x hx with h | h | h | h | h | h | h | h | h | h | h | h | h | h | h | h | h | h | h | h | h | h | h | h | h | h | h | h | h <;> omega

theorem upChar_toNat_of_range (c : Char) (h : 97 ≤ c.toNat ∧ c.toNat ≤ 122) :
    (upChar c).toNat = c.toNat - 32 := by
  unfold upChar
  rw [if_pos h]
  exact toNat_ofNatV _ (by omega)

theorem upChar_eq_self_of (c : Char) (h : ¬(97 ≤ c.toNat ∧ c.toNat ≤ 122)) :
    upChar c = c := by
  unfold upChar
  rw [if_neg h]

theorem isWS_upChar (c : Char) : isWS (upChar c) = isWS c := by
  by_cases h : 97 ≤ c.toNat ∧ c.toNat ≤ 122
  · have ht := upChar_toNat_of_range c h
    rw [isWS_false_of_range (upChar c) (by omega) (by omega)]
    rw [isWS_false_of_range c (by omega) (by omega)]
  · rw [upChar_eq_self_of c h]

theorem upChar_idem (c : Char) : upChar (upChar c) = upChar c := by
  by_cases h : 97 ≤ c.toNat ∧ c.toNat ≤ 122
  · have ht := upChar_toNat_of_range c h
    exact upChar_eq_self_of (upChar c) (by omega)
  · rw [upChar_eq_self_of c h]
    exact upChar_eq_self_of c h

theorem upChar_ascii (c : Char) (h : isAsciiB c = true) : isAsciiB (upChar c) = true := by
  by_cases hr : 97 ≤ c.toNat ∧ c.toNat ≤ 122
  · have ht := upChar_toNat_of_range c hr
    unfold isAsciiB at *
    simp only [decide_eq_true_eq] at *
    omega
  · rw [upChar_eq_self_of c hr]
    exact h

theorem getLast?_some_mem {α : Type} : ∀ {l : List α} {a : α}, l.getLast? = some a → a ∈ l := by
  intro l
  induction l with
  | nil => intro a h; cases h
  | cons x xs ih =>
    intro a h
    rw [getLast?_cons_or] at h
    cases hx : xs.getLast? with
    | none =>
      rw [hx] at h
      have : x = a := Option.some.inj h
      subst this
      exact List.mem_cons_self x xs
    | some b =>
      rw [hx] at h
      have : b = a := Option.some.inj h
      subst this
      exact List.mem_cons_of_mem x (ih hx)

theorem dropWhile_head?_false {α : Type} (p : α → Bool) :
    ∀ (l : List α) (c : α), (l.dropWhile p).head? = some c → p c = false := by
  intro l
  induction l with
  | nil => intro c h; cases h
  | cons x xs ih =>
    intro c h
    rw [List.dropWhile_cons] at h
    by_cases hp : p x = true
    · rw [if_pos hp] at h
      exact ih c h
    · rw [if_neg hp] at h
      rw [List.head?_cons] at h
      have : x = c := Option.some.inj h
      subst this
      rw [Bool.not_eq_true] at hp
      exact hp

theorem dropWhile_getLast?_of_ne_nil {α : Type} (p : α → Bool) :
    ∀ (l : List α), l.dropWhile p ≠ [] → (l.dropWhile p).getLast? = l.getLast? := by
  intro l
  induction l with
  | nil => intro h; exact absurd rfl h
  | cons x xs ih =>
    intro h
    rw [List.dropWhile_cons] at h ⊢
    by_cases hp : p x = true
    · rw [if_pos hp] at h ⊢
      rw [ih h]
      have hxs : xs ≠ [] := by
        intro hn
        subst hn
        exact h rfl
      rw [getLast?_cons_or]
      cases hg : xs.getLast? with
      | none => exact absurd (List.getLast?_eq_none_iff.mp hg) hxs
      | some b => rfl
    · rw [if_neg hp] at h ⊢

theorem stripWS_lastNonWS (l : List Char) : lastNonWS (stripWS l) := by
  intro c hc
  unfold stripWS at hc
  rw [List.getLast?_reverse] at hc
  exact dropWhile_head?_false isWS _ c hc

theorem stripWS_headNonWS (l : List Char) : headNonWS (stripWS l) := by
  intro c hc
  unfold stripWS at hc
  rw [List.head?_reverse] at hc
  by_cases hne : ((l.dropWhile isWS).reverse.dropWhile isWS) = []
  · rw [hne] at hc
    cases hc
  · rw [dropWhile_getLast?_of_ne_nil isWS _ hne, List.getLast?_reverse] at hc
    exact dropWhile_head?_false isWS _ c hc

theorem stripWS_eq_self (l : List Char) (h1 : headNonWS l) (h2 : lastNonWS l) :
    stripWS l = l := by
  have hd : l.dropWhile isWS = l := by
    cases l with
    | nil => rfl
    | cons c cs =>
      rw [List.dropWhile_cons, if_neg (by simp [h1 c List.head?_cons])]
  unfold stripWS
  rw [hd]
  have hd2 : l.reverse.dropWhile isWS = l.reverse := by
    cases hr : l.reverse with
    | nil => rfl
    | cons c cs =>
      have hlast : l.getLast? = some c := by
        rw [← List.head?_reverse, hr, List.head?_cons]
      rw [List.dropWhile_cons, if_neg (by simp [h2 c hlast])]
  rw [hd2, List.reverse_reverse]

theorem collapseAux_cons (b : Bool) (c : Char) (cs : List Char) :
    collapseAux b (c :: cs)
      = if isWS c then
          (if b then collapseAux true cs else ' ' :: collapseAux true cs)
        else c :: collapseAux false cs := rfl

theorem collapse_mem : ∀ (l : List Char) (b : Bool) (c : Char),
    c ∈ collapseAux b l → c = ' ' ∨ c ∈ l := by
  intro l
  induction l with
  | nil => intro b c h; cases h
  | cons d ds ih =>
    intro b c h
    rw [collapseAux_cons] at h
    by_cases hws : isWS d = true
    · rw [if_pos hws] at h
      cases b with
      | true =>
        simp only [if_pos] at h
        rcases ih true c h with h1 | h1
        · exact Or.inl h1
        · exact Or.inr (List.mem_cons_of_mem d h1)
      | false =>
        simp only [if_neg Bool.false_ne_true] at h
        rcases List.mem_cons.mp h with h1 | h1
        · exact Or.inl h1
        · rcases ih true c h1 with h2 | h2
          · exact Or.inl h2
          · exact Or.inr (List.mem_cons_of_mem d h2)
    · rw [if_neg hws] at h
      rcases List.mem_cons.mp h with h1 | h1
      · exact Or.inr (h1 ▸ List.mem_cons_self d ds)
      · rcases ih false c h1 with h2 | h2
        · exact Or.inl h2
        · exact Or.inr (List.mem_cons_of_mem d h2)

theorem collapse_headTrue : ∀ (l : List Char) (c : Char),
    (collapseAux true l).head? = some c → isWS c = false := by
  intro l
  induction l with
  | nil => intro c h; cases h
  | cons d ds ih =>
    intro c h
    rw [collapseAux_cons] at h
    by_cases hws : isWS d = true
    · rw [if_pos hws, if_pos rfl] at h
      exact ih c h
    · rw [if_neg hws, List.head?_cons] at h
      have : d = c := Option.some.inj h
      subst this
      rw [Bool.not_eq_true] at hws
      exact hws

theorem collapse_WF : ∀ (l : List Char) (b : Bool), collapsedWF (collapseAux b l) := by
  intro l
  induction l with
  | nil =>
    intro b
    exact ⟨fun c hc => absurd hc (List.not_mem_nil c), List.chain'_nil⟩
  | cons d ds ih =>
    intro b
    rw [collapseAux_cons]
    by_cases hws : isWS d = true
    · rw [if_pos hws]
      cases b with
      | true =>
        simp only [if_pos]
        exact ih true
      | false =>
        simp only [if_neg Bool.false_ne_true]
        obtain ⟨ihA, ihC⟩ := ih true
        refine ⟨?_, ?_⟩
        · intro c hc hcw
          rcases List.mem_cons.mp hc with h1 | h1
          · exact h1
          · exact ihA c h1 hcw
        · rw [List.chain'_cons']
          refine ⟨?_, ihC⟩
          intro y hy
          intro hcon
          have := collapse_headTrue ds y hy
          rw [this] at hcon
          exact Bool.noConfusion hcon.2
    · rw [if_neg hws]
      obtain ⟨ihA, ihC⟩ := ih false
      refine ⟨?_, ?_⟩
      · intro c hc hcw
        rcases List.mem_cons.mp hc with h1 | h1
        · subst h1
          rw [hcw] at hws
          exact absurd rfl hws
        · exact ihA c h1 hcw
      · rw [List.chain'_cons']
        refine ⟨?_, ihC⟩
        intro y hy hcon
        rw [Bool.not_eq_true] at hws
        rw [hws] at hcon
        exact Bool.noConfusion hcon.1

theorem collapse_fix : ∀ l : List Char, collapsedWF l →
    (collapseAux false l = l ∧ (headNonWS l → collapseAux true l = l)) := by
  intro l
  induction l with
  | nil => intro _; exact ⟨rfl, fun _ => rfl⟩
  | cons c cs ih =>
    intro hwf
    obtain ⟨hA, hC⟩ := hwf
    rw [List.chain'_cons'] at hC
    have hwfcs : collapsedWF cs := ⟨fun x hx => hA x (List.mem_cons_of_mem c hx), hC.2⟩
    have ihcs := ih hwfcs
    by_cases hws : isWS c = true
    · have hcsp : c = ' ' := hA c (List.mem_cons_self c cs) hws
      have hcsHead : headNonWS cs := by
        intro y hy
        have hthis := hC.1 y hy
        by_cases hyw : isWS y = true
        · exact absurd ⟨hws, hyw⟩ hthis
        · rw [Bool.not_eq_true] at hyw
          exact hyw
      constructor
      · rw [collapseAux_cons, if_pos hws]
        simp only [if_neg Bool.false_ne_true]
        rw [ihcs.2 hcsHead, hcsp]
      · intro hhead
        have := hhead c List.head?_cons
        rw [hws] at this
        exact Bool.noConfusion this
    · rw [Bool.not_eq_true] at hws
      constructor
      · rw [collapseAux_cons, hws]
        simp only [if_neg Bool.false_ne_true]
        rw [ihcs.1]
      · intro _
        rw [collapseAux_cons, hws]
        simp only [if_neg Bool.false_ne_true]
        rw [ihcs.1]

theorem collapse_ne_nil : ∀ (l : List Char) (b : Bool),
    (∃ c ∈ l, isWS c = false) → collapseAux b l ≠ [] := by
  intro l
  induction l with
  | nil =>
    intro b h
    obtain ⟨c, hc, _⟩ := h
    exact absurd hc (List.not_mem_nil c)
  | cons d ds ih =>
    intro b h
    rw [collapseAux_cons]
    by_cases hws : isWS d = true
    · rw [if_pos hws]
      have hds : ∃ c ∈ ds, isWS c = false := by
        obtain ⟨c, hc, hcw⟩ := h
        rcases List.mem_cons.mp hc with h1 | h1
        · subst h1
          rw [hws] at hcw
          exact absurd hcw (by simp)
        · exact ⟨c, h1, hcw⟩
      cases b with
      | true =>
        simp only [if_pos]
        exact ih true hds
      | false =>
        simp only [if_neg Bool.false_ne_true]
        exact List.cons_ne_nil _ _
    · rw [if_neg hws]
      exact List.cons_ne_nil _ _

theorem collapse_last : ∀ (l : List Char) (b : Bool),
    lastNonWS l → lastNonWS (collapseAux b l) := by
  intro l
  induction l with
  | nil => intro b _ c hc; cases hc
  | cons d ds ih =>
    intro b hlast
    cases ds with
    | nil =>
      have hdw : isWS d = false := hlast d rfl
      rw [collapseAux_cons, hdw]
      simp only [if_neg Bool.false_ne_true]
      intro c hc
      have : d = c := by
        have : (([d] : List Char)).getLast? = some d := rfl
        rw [show collapseAux false ([] : List Char) = [] from rfl] at hc
        exact Option.some.inj hc
      subst this
      exact hdw
    | cons e es =>
      have hlast2 : lastNonWS (e :: es) := by
        intro c hc
        apply hlast
        rw [List.getLast?_cons_cons]
        exact hc
      have hnonil : ∃ c ∈ e :: es, isWS c = false := by
        cases hg : (e :: es).getLast? with
        | none => exact absurd (List.getLast?_eq_none_iff.mp hg) (List.cons_ne_nil e es)
        | some a => exact ⟨a, getLast?_some_mem hg, hlast2 a hg⟩
      have hXne : collapseAux true (e :: es) ≠ [] := collapse_ne_nil _ true hnonil
      have hXlast : lastNonWS (collapseAux true (e :: es)) := ih true hlast2
      have hXne' : collapseAux false (e :: es) ≠ [] := collapse_ne_nil _ false hnonil
      have hXlast' : lastNonWS (collapseAux false (e :: es)) := ih false hlast2
      rw [collapseAux_cons]
      by_cases hws : isWS d = true
      · rw [if_pos hws]
        cases b with
        | true =>
          simp only [if_pos]
          exact hXlast
        | false =>
          simp only [if_neg Bool.false_ne_true]
          intro c hc
          rw [getLast?_cons_or] at hc
          cases hg : (collapseAux true (e :: es)).getLast? with
          | none => exact absurd (List.getLast?_eq_none_iff.mp hg) hXne
          | some a =>
            rw [hg] at hc
            have : a = c := Option.some.inj hc
            subst this
            exact hXlast a hg
      · rw [if_neg hws]
        intro c hc
        rw [getLast?_cons_or] at hc
        cases hg : (collapseAux false (e :: es)).getLast? with
        | none => exact absurd (List.getLast?_eq_none_iff.mp hg) hXne'
        | some a =>
          rw [hg] at hc
          have : a = c := Option.some.inj hc
          subst this
          exact hXlast' a hg

theorem collapse_headNonWS_out (q : List Char) (hq : headNonWS q) :
    headNonWS (collapseAux false q) := by
  cases q with
  | nil => intro c hc; cases hc
  | cons c cs =>
    have hcw : isWS c = false := hq c List.head?_cons
    rw [collapseAux_cons, hcw]
    simp only [if_neg Bool.false_ne_true]
    intro y hy
    rw [List.head?_cons] at hy
    have : c = y := Option.some.inj hy
    subst this
    exact hcw

theorem map_eq_self_of {α : Type} (f : α → α) :
    ∀ (l : List α), (∀ c ∈ l, f c = c) → l.map f = l := by
  intro l
  induction l with
  | nil => intro _; rfl
  | cons x xs ih =>
    intro h
    rw [List.map_cons, h x (List.mem_cons_self x xs),
      ih (fun c hc => h c (List.mem_cons_of_mem x hc))]

theorem getLast?_append_right {α : Type} (u v : List α) (hv : v ≠ []) :
    (u ++ v).getLast? = v.getLast? := by
  induction u with
  | nil => rfl
  | cons x xs ih =>
    rw [List.cons_append, getLast?_cons_or, ih]
    cases hg : v.getLast? with
    | none => exact absurd (List.getLast?_eq_none_iff.mp hg) hv
    | some a => rfl

theorem flatMap_eq_self_of (f : Char → List Char) :
    ∀ l : List Char, (∀ c ∈ l, f c = [c]) → l.flatMap f = l := by
  intro l
  induction l with
  | nil => intro _; rfl
  | cons x xs ih =>
    intro h
    rw [List.flatMap_cons, h x (List.mem_cons_self x xs),
      ih (fun c hc => h c (List.mem_cons_of_mem x hc))]
    rfl

theorem flatMap_getLast?_of_last (f : Char → List Char) :
    ∀ (u : List Char) (cE : Char), u.getLast? = some cE → f cE ≠ [] →
      ∃ d, (u.flatMap f).getLast? = some d ∧ d ∈ f cE := by
  intro u
  induction u with
  | nil => intro cE h _; cases h
  | cons a u2 ih =>
    intro cE h hne
    cases u2 with
    | nil =>
      have ha : a = cE := Option.some.inj h
      subst ha
      rw [List.flatMap_cons, List.flatMap_nil, List.append_nil]
      cases hg : (f a).getLast? with
      | none => exact absurd (List.getLast?_eq_none_iff.mp hg) hne
      | some d => exact ⟨d, rfl, getLast?_some_mem hg⟩
    | cons b u3 =>
      have h2 : (b :: u3).getLast? = some cE := by
        rw [List.getLast?_cons_cons] at h
        exact h
      obtain ⟨d, hd, hdm⟩ := ih cE h2 hne
      have hne2 : (b :: u3).flatMap f ≠ [] := by
        intro h0
        rw [h0] at hd
        cases hd
      refine ⟨d, ?_, hdm⟩
      rw [List.flatMap_cons, getLast?_append_right _ _ hne2]
      exact hd

/-- Claim C9 counterexample: with the transliteration behaviour of the
real `unidecode` on CJK input (`unidecode('北亰') = "Bei Jing "`, a
trailing space), `norm_name` is NOT idempotent — stripping happens before
transliteration, so the trailing space survives the first normalization
and is removed only by the second. -/
theorem claim_C9_counterexample :
    norm_name deascCJK ("北亰" : String).data = ("BEI JING " : String).data ∧
    norm_name deascCJK (norm_name deascCJK ("北亰" : String).data)
      = ("BEI JING" : String).data ∧
    ("BEI JING " : String).data ≠ ("BEI JING" : String).data := by
  decide

/-- Claim C9 amended: `norm_name` is idempotent for every transliteration
mapping each character to a non-empty, whitespace-free ASCII string and
leaving ASCII characters unchanged — the situation for Latin-script
names.  Real `unidecode` violates whitespace-freeness on CJK input
(trailing-space romanizations), which is exactly the counterexample. -/
theorem claim_C9_normIdempotent (deasc : Char → List Char)
    (hid : ∀ c, isAsciiB c = true → deasc c = [c])
    (hasc : ∀ c d, d ∈ deasc c → isAsciiB d = true)
    (hws : ∀ c, isWS c = false → deasc c ≠ [] ∧ ∀ d ∈ deasc c, isWS d = false)
    (l : List Char) :
    norm_name deasc (norm_name deasc l) = norm_name deasc l := by
  unfold norm_name
  set q := ((stripWS l).flatMap deasc).map upChar with hqdef
  set r := collapseWS q with hrdef
  have hqHead : headNonWS q := by
    intro c hc
    cases hsl : stripWS l with
    | nil =>
      rw [hqdef, hsl] at hc
      simp at hc
    | cons c0 cs =>
      have h0 : isWS c0 = false := stripWS_headNonWS l c0 (by rw [hsl]; rfl)
      obtain ⟨hne, hall⟩ := hws c0 h0
      cases hd : deasc c0 with
      | nil => exact absurd hd hne
      | cons d ds =>
        rw [hqdef, hsl, List.flatMap_cons, hd] at hc
        rw [List.cons_append, List.map_cons, List.head?_cons] at hc
        have h5 : upChar d = c := Option.some.inj hc
        rw [← h5, isWS_upChar]
        exact hall d (by rw [hd]; exact List.mem_cons_self d ds)
  have hqLast : lastNonWS q := by
    intro c hc
    cases hgl : (stripWS l).getLast? with
    | none =>
      have h0 : stripWS l = [] := List.getLast?_eq_none_iff.mp hgl
      rw [hqdef, h0] at hc
      simp at hc
    | some cE =>
      have hE : isWS cE = false := stripWS_lastNonWS l cE hgl
      obtain ⟨hne, hall⟩ := hws cE hE
      obtain ⟨d, hd, hdm⟩ := flatMap_getLast?_of_last deasc (stripWS l) cE hgl hne
      rw [hqdef, List.getLast?_map, hd] at hc
      simp only [Option.map_some'] at hc
      have h5 : upChar d = c := Option.some.inj hc
      rw [← h5, isWS_upChar]
      exact hall d hdm
  have hrHead : headNonWS r := by
    rw [hrdef]
    exact collapse_headNonWS_out q hqHead
  have hrLast : lastNonWS r := by
    rw [hrdef]
    exact collapse_last q false hqLast
  have hrWF : collapsedWF r := by
    rw [hrdef]
    exact collapse_WF q false
  have hrChars : ∀ c ∈ r, deasc c = [c] ∧ upChar c = c := by
    intro c hc
    rw [hrdef] at hc
    have h1 := collapse_mem q false c hc
    rcases h1 with h1 | h1
    · subst h1
      exact ⟨hid ' ' (by decide), by decide⟩
    · rw [hqdef] at h1
      obtain ⟨d, hd, hdc⟩ := List.mem_map.mp h1
      obtain ⟨e, he, hed⟩ := List.mem_flatMap.mp hd
      subst hdc
      have hac : isAsciiB (upChar d) = true := upChar_ascii _ (hasc e d hed)
      exact ⟨hid _ hac, upChar_idem d⟩
  rw [stripWS_eq_self r hrHead hrLast]
  rw [flatMap_eq_self_of deasc r (fun c hc => (hrChars c hc).1)]
  rw [map_eq_self_of upChar r (fun c hc => (hrChars c hc).2)]
  show collapseAux false r = r
  exact (collapse_fix r hrWF).1

/-- Claim C9 amended, witness: the concrete well-behaved transliteration
`deascW` meets the three hypotheses, and normalizing a messy concrete
name twice equals normalizing it once. -/
theorem claim_C9_witness :
    (∀ c, isAsciiB c = true → deascW c = [c]) ∧
    (∀ c d, d ∈ deascW c → isAsciiB d = true) ∧
    (∀ c, isWS c = false → deascW c ≠ [] ∧ ∀ d ∈ deascW c, isWS d = false) ∧
    norm_name deascW (norm_name deascW ("  joao   da  Silva " : String).data)
      = norm_name deascW ("  joao   da  Silva " : String).data := by
  have h1 : ∀ c, isAsciiB c = true → deascW c = [c] := by
    intro c h
    unfold deascW
    rw [if_pos h]
  have h2 : ∀ c d, d ∈ deascW c → isAsciiB d = true := by
    intro c d hd
    unfold deascW at hd
    by_cases h : isAsciiB c = true
    · rw [if_pos h] at hd
      have h6 := List.mem_singleton.mp hd
      subst h6
      exact h
    · rw [if_neg h] at hd
      by_cases hw : isWS c = true
      · rw [if_pos hw] at hd
        have h6 := List.mem_singleton.mp hd
        subst h6
        decide
      · rw [if_neg hw] at hd
        have h6 := List.mem_singleton.mp hd
        subst h6
        decide
  have h3 : ∀ c, isWS c = false → deascW c ≠ [] ∧ ∀ d ∈ deascW c, isWS d = false := by
    intro c hcw
    unfold deascW
    by_cases h : isAsciiB c = true
    · rw [if_pos h]
      refine ⟨List.cons_ne_nil c [], ?_⟩
      intro d hd
      have h6 := List.mem_singleton.mp hd
      subst h6
      exact hcw
    · rw [if_neg h]
      by_cases hw : isWS c = true
      · rw [hcw] at hw
        exact Bool.noConfusion hw
      · rw [if_neg hw]
        refine ⟨List.cons_ne_nil 'A' [], ?_⟩
        intro d hd
        have h6 := List.mem_singleton.mp hd
        subst h6
        decide
  exact ⟨h1, h2, h3,
    claim_C9_normIdempotent deascW h1 h2 h3 ("  joao   da  Silva " : String).data⟩
